import Mathlib

/-!
Verification of the DirO directory organizer (main.py, utils.py).

Strings from the Python code are modelled as lists of characters
(`Str := List Char`); filesystem paths are such strings.  Pure helper
functions (`os.path.basename`, `os.path.splitext`, `str.lower`,
`str.rsplit`, `str.split`) are translated from their CPython semantics.
Filesystem state, where a function consults it, is passed explicitly:
a list of existing paths for file-level operations, and a tree of
entries for the directory walks.
-/

namespace DirO

/-- Python strings, modelled as lists of characters. -/
abbrev Str := List Char

/-- Coerce a Lean string literal into the model. -/
def strL (s : String) : Str := s.toList

/-- Index of the last occurrence of a character, if any
(the model of Python `str.rfind`). -/
def lastIdx (c : Char) : Str → Option Nat
  | [] => none
  | x :: xs =>
    match lastIdx c xs with
    | some i => some (i + 1)
    | none => if x = c then some 0 else none

/-- Model of `os.path.basename` (POSIX): everything after the last slash. -/
def basename (s : Str) : Str :=
  match lastIdx '/' s with
  | none => s
  | some i => s.drop (i + 1)

/-- Model of `os.path.join dir name` (POSIX, relative second argument). -/
def joinP (dir name : Str) : Str := dir ++ '/' :: name

/-- Model of `os.path.splitext` (CPython `genericpath._splitext`):
split at the last dot, but only when a character other than a dot
occurs between the last slash and that dot (leading dots of the last
component are part of the root, so dotfiles have no extension). -/
def splitext (p : Str) : Str × Str :=
  let sepIdx : Int := match lastIdx '/' p with | none => -1 | some i => (i : Int)
  let dotIdx : Int := match lastIdx '.' p with | none => -1 | some i => (i : Int)
  if sepIdx < dotIdx then
    let start := (sepIdx + 1).toNat
    let mid := (p.drop start).take (dotIdx.toNat - start)
    if mid.any (fun ch => ch != '.') then (p.take dotIdx.toNat, p.drop dotIdx.toNat)
    else (p, [])
  else (p, [])

/-- Model of `str.lower` (character-wise, as used on filenames). -/
def lowerStr (s : Str) : Str := s.map Char.toLower

/-- The `".no_extension"` sentinel of `get_file_info`. -/
def NO_EXT : Str := strL ".no_extension"

/-- Extension derivation of the scanner (main.py line 137):
`os.path.splitext(name)[1].lower() or ".no_extension"`. -/
def extOf (name : Str) : Str :=
  let e := lowerStr (splitext name).2
  if e = [] then NO_EXT else e

/-- The extension rule as the claim states it: the lowercased substring
after the last dot including the dot; the sentinel when there is no dot
or when only trailing dots produce an empty suffix. -/
def extSpecClaim (name : Str) : Str :=
  match lastIdx '.' name with
  | none => NO_EXT
  | some d => if name.drop d = ['.'] then NO_EXT else lowerStr (name.drop d)

/-- The amended extension rule: the lowercased substring from the last
dot, provided some character other than a dot precedes that dot;
otherwise (no dot at all, or a purely leading run of dots, as in
dotfiles) the sentinel. Stated for slash-free filenames, which is what
the scanner feeds to the derivation after `basename`. -/
def extSpecAmended (name : Str) : Str :=
  match lastIdx '.' name with
  | none => NO_EXT
  | some d =>
    if (name.take d).any (fun ch => ch != '.') then lowerStr (name.drop d) else NO_EXT

/-! Decimal rendering of a counter, the model of a Python f-string
interpolation of an integer (`f"...{counter}..."`). -/

/-- Render the decimal digits of `n` in front of `acc`; the first
argument is recursion fuel, sufficient whenever `n < 10 ^ fuel`. -/
def decAux : Nat → Nat → Str → Str
  | 0, _, acc => acc
  | fuel + 1, n, acc =>
    if n < 10 then Nat.digitChar n :: acc
    else decAux fuel (n / 10) (Nat.digitChar (n % 10) :: acc)

/-- Decimal rendering of a natural number. -/
def decStr (n : Nat) : Str := decAux (n + 1) n []

/-- Decimal reading, the left inverse used to prove `decStr` injective. -/
def decVal (s : Str) : Nat := s.foldl (fun acc c => acc * 10 + (c.toNat - 48)) 0

/-! safe_move_file (main.py lines 78-89). The filesystem is modelled as
the list of existing paths; `shutil.move` makes the destination exist
and the source no longer exist. -/

/-- The k-th destination probed by the loop in safe_move_file: the plain
prefixed basename first (k = 0), then the stem with an underscore and
the decimal counter inserted before the extension (counter = k from 1). -/
def moveCandidate (folder pfx base : Str) : Nat → Str
  | 0 => joinP folder (pfx ++ base)
  | k + 1 =>
    joinP folder (pfx ++ (splitext base).1 ++ '_' :: (decStr (k + 1) ++ (splitext base).2))

/-- The while-loop of safe_move_file: probe candidates in order until one
does not exist. The fuel argument bounds the iterations; fs.length + 1
probes always suffice. -/
def findFreeDest (fs : List Str) (folder pfx base : Str) : Nat → Nat → Str
  | 0, k => moveCandidate folder pfx base k
  | fuel + 1, k =>
    if moveCandidate folder pfx base k ∈ fs then findFreeDest fs folder pfx base fuel (k + 1)
    else moveCandidate folder pfx base k

/-- The destination path safe_move_file chooses for a source with
basename `base` moved into `folder` with name prefix `pfx`. -/
def safe_move_dest (fs : List Str) (folder pfx base : Str) : Str :=
  findFreeDest fs folder pfx base (fs.length + 1) 0

/-- safe_move_file: the filesystem after moving `src` into `folder`. -/
def safe_move_file (fs : List Str) (src folder pfx : Str) : List Str :=
  safe_move_dest fs folder pfx (basename src) :: fs.erase src

/-! Directory scanner: get_file_info (main.py lines 122-151). The
directory tree is a list of entries in scandir order; scan_dir yields
file paths, descending into subdirectories unless top_level_only. -/

/-- One directory entry: a regular file, or a subdirectory with its own
entries in scandir order. -/
inductive FSEntry where
  | file : Str → FSEntry
  | dir : Str → List FSEntry → FSEntry

/-- scan_dir: the stream of file paths, in traversal order. -/
def scanList (pfx : Str) (topOnly : Bool) : List FSEntry → List Str
  | [] => []
  | .file n :: es => joinP pfx n :: scanList pfx topOnly es
  | .dir n cs :: es =>
    (if topOnly then [] else scanList (joinP pfx n) topOnly cs) ++ scanList pfx topOnly es

/-- Python str.split() with no argument: maximal runs of
non-whitespace characters. -/
def splitWSAux : Str → Str → List Str
  | [], tok => if tok.isEmpty then [] else [tok.reverse]
  | c :: cs, tok =>
    if c.isWhitespace then
      if tok.isEmpty then splitWSAux cs [] else tok.reverse :: splitWSAux cs []
    else splitWSAux cs (c :: tok)

def splitWS (s : Str) : List Str := splitWSAux s []

/-- Model of name.rsplit('.', 1)[0]: everything before the last dot. -/
def stemOf (s : Str) : Str :=
  match lastIdx '.' s with
  | none => s
  | some d => s.take d

/-- The file-descriptor dictionary built by get_file_info. -/
structure FileD where
  path : Str
  name : Str
  ext : Str
  words : List Str

/-- The descriptor get_file_info builds for a path. -/
def mkFileD (path : Str) : FileD :=
  { path := path
    name := basename path
    ext := extOf (basename path)
    words := splitWS (stemOf (basename path)) }

/-- The loop body of get_file_info: fold the scan stream, keeping one
descriptor per first-seen base name and diverting the rest to the
duplicates list. -/
def dedupScan : List Str → List Str → List FileD × List Str
  | [], _ => ([], [])
  | p :: ps, seen =>
    if basename p ∈ seen then
      ((dedupScan ps seen).1, p :: (dedupScan ps seen).2)
    else
      (mkFileD p :: (dedupScan ps (basename p :: seen)).1,
       (dedupScan ps (basename p :: seen)).2)

/-- get_file_info over a root directory given by path and entries. -/
def get_file_info (root : Str) (entries : List FSEntry) (recursive : Bool) :
    List FileD × List Str :=
  dedupScan (scanList root (!recursive) entries) []

/-! Python dict semantics over insertion-ordered association lists. -/

/-- Keys of an association list, in insertion order. -/
def keysOf {α β : Type} (d : List (α × β)) : List α := d.map Prod.fst

/-- d.setdefault(k, []).append(v): append v to k's group, creating the
group at the end of the dict on first use. -/
def dictAppend {α β : Type} [DecidableEq α] (d : List (α × List β)) (k : α) (v : β) :
    List (α × List β) :=
  if k ∈ keysOf d then
    d.map (fun p => if p.1 = k then (p.1, p.2 ++ [v]) else p)
  else d ++ [(k, [v])]

/-- d[k] = v: overwrite in place, or insert at the end. -/
def dictSet {α β : Type} [DecidableEq α] (d : List (α × β)) (k : α) (v : β) :
    List (α × β) :=
  if k ∈ keysOf d then d.map (fun p => if p.1 = k then (p.1, v) else p)
  else d ++ [(k, v)]

/-- Concatenation of all groups of a dict of lists. -/
def valsJoin {α β : Type} (d : List (α × List β)) : List β := (d.map Prod.snd).flatten

/-! sort_by_type: main.py lines 163-187 and utils.py lines 2-22. -/

/-- Folder-name constants (main.py lines 66-73). -/
def TYPE_PFX : Str := strL "Type "

def NO_EXTENSION_FOLDER : Str := strL "No Extension"

def SIMILAR_PFX : Str := strL "Similar"

def ALL_FILES_FOLDER : Str := strL "One Folder"

def DUPLICATES_FOLDER : Str := strL "Duplicates"

def DUPE_PFX : Str := strL "Dupe"

def EMPTY_FOLDERS_FOLDER : Str := strL "Empty Folders"

/-- The by-extension grouping loop shared by both revisions. -/
def byType (files : List FileD) : List (Str × List Str) :=
  files.foldl (fun d f => dictAppend d f.ext f.path) []

/-- The label main.py gives an extension group. -/
def typeKey (ext : Str) : Str :=
  if ext = NO_EXT then NO_EXTENSION_FOLDER else TYPE_PFX ++ ext.drop 1

/-- sort_by_type from main.py. A base_path of None or "" is falsy in
Python, sending execution to the non-recursive branch. In the
recursive branch, extension groups of two or more files are labeled,
and each singleton group's one path is appended to the group keyed by
base_path itself. -/
def sort_by_type (files : List FileD) (recursive : Bool) (base_path : Option Str) :
    List (Str × List Str) :=
  if recursive && !(base_path.getD []).isEmpty then
    (byType files).foldl (fun sugg ep =>
      if ep.2.length > 1 then dictSet sugg (typeKey ep.1) ep.2
      else dictAppend sugg (base_path.getD []) (ep.2.headD [])) []
  else
    (byType files).foldl (fun sugg ep => dictSet sugg (typeKey ep.1) ep.2) []

/-- The label utils.py gives an extension group. -/
def typeKeyU (ext : Str) : Str :=
  if ext = NO_EXT then strL "No_Extension" else strL "Type_" ++ ext.drop 1

/-- sort_by_type from utils.py: same recursive branch shape, but the
non-recursive branch keeps only groups of two or more files. -/
def utils_sort_by_type (files : List FileD) (recursive : Bool) (base_path : Option Str) :
    List (Str × List Str) :=
  if recursive && !(base_path.getD []).isEmpty then
    (byType files).foldl (fun sugg ep =>
      if ep.2.length > 1 then dictSet sugg (typeKeyU ep.1) ep.2
      else dictAppend sugg (base_path.getD []) (ep.2.headD [])) []
  else
    (byType files).foldl (fun sugg ep =>
      if ep.2.length > 1 then dictSet sugg (typeKeyU ep.1) ep.2 else sugg) []

/-- Concrete descriptor list used by witnesses. -/
def wfilesC3 : List FileD :=
  [⟨strL "/r/a.txt", strL "a.txt", strL ".txt", []⟩,
   ⟨strL "/r/b.txt", strL "b.txt", strL ".txt", []⟩,
   ⟨strL "/r/c", strL "c", NO_EXT, []⟩]

/-- The label translation between the two revisions of sort_by_type. -/
def renameKey (k : Str) : Str :=
  if k = NO_EXTENSION_FOLDER then strL "No_Extension"
  else if k.take 5 = TYPE_PFX then strL "Type_" ++ k.drop 5
  else k

/-! sort_by_similarity (main.py lines 189-245). Scores are rationals;
Python float arithmetic on these small integer ratios is exact. -/

/-- Count of equal characters at equal positions (content mode's zip). -/
def posCommon : Str → Str → Nat
  | c1 :: t1, c2 :: t2 => (if c1 = c2 then 1 else 0) + posCommon t1 t2
  | _, _ => 0

/-- Length of the common leading prefix (the zip/break loop). -/
def commonPfxLen : Str → Str → Nat
  | c1 :: t1, c2 :: t2 => if c1 = c2 then commonPfxLen t1 t2 + 1 else 0
  | _, _ => 0

/-- Count of the distinct characters of s1 occurring anywhere in s2
(`sum(1 for c in set(s1) if c in s2)`). -/
def commonDistinct (s1 s2 : Str) : Nat :=
  ((s1.dedup).filter (fun c => c ∈ s2)).length

/-- The name-mode score on the two lowercased stems. -/
def nameScore (s1 s2 : Str) : ℚ :=
  if ((s1.length : Int) - (s2.length : Int)).natAbs > (max s1.length s2.length) / 2 then 0
  else
    let total := max s1.length s2.length
    let score : ℚ := if total > 0 then ((commonDistinct s1 s2 : ℚ) / (total : ℚ)) * 100
      else 0
    if commonPfxLen s1 s2 ≥ 3 then min 100 (score + (commonPfxLen s1 s2 : ℚ) * 5)
    else score

/-- The content-mode score on the two digests. -/
def contentScore (k1 k2 : Str) : ℚ :=
  if k1 = k2 then 100
  else ((posCommon k1 k2 : ℚ) / (max k1.length k2.length : ℚ)) * 100

/-- similarity_score: dispatch on check_contents, stripping and
lowercasing the stems in name mode. -/
def similarity_score (check : Bool) (k1 k2 : Str) : ℚ :=
  if check then contentScore k1 k2
  else nameScore (lowerStr (stemOf k1)) (lowerStr (stemOf k2))

/-- The name-mode formula as the claim states it, with the length
rejection over the rationals. -/
def nameScoreSpec (s1 s2 : Str) : ℚ :=
  if |(s1.length : ℚ) - (s2.length : ℚ)| > (max s1.length s2.length : ℚ) / 2 then 0
  else
    let base : ℚ := 100 * (commonDistinct s1 s2 : ℚ) / (max s1.length s2.length : ℚ)
    if commonPfxLen s1 s2 ≥ 3 then min 100 (base + 5 * (commonPfxLen s1 s2 : ℚ))
    else base

/-- The comparison key of a file (content digest or name). -/
def simKey (check : Bool) (hash : Str → Str) (f : FileD) : Str :=
  if check then hash f.path else f.name

/-- The inner loop: collect the not-yet-processed later files whose key
scores at least 60 against the seed key, marking them processed. -/
def simCollect (check : Bool) (hash : Str → Str) (key1 : Str) :
    List FileD → List Str → List Str × List Str
  | [], processed => ([], processed)
  | f2 :: rest, processed =>
    if f2.path ∈ processed then simCollect check hash key1 rest processed
    else if similarity_score check key1 (simKey check hash f2) ≥ 60 then
      let res := simCollect check hash key1 rest (f2.path :: processed)
      (f2.path :: res.1, res.2)
    else simCollect check hash key1 rest processed

/-- The outer loop: each unprocessed seed in order opens a group; a
group of two or more becomes the next "SimilarN" suggestion. -/
def simLoop (check : Bool) (hash : Str → Str) :
    List FileD → List Str → Nat → List (Str × List Str)
  | [], _, _ => []
  | f1 :: rest, processed, counter =>
    if f1.path ∈ processed then simLoop check hash rest processed counter
    else
      let res := simCollect check hash (simKey check hash f1) rest processed
      if res.1.isEmpty then simLoop check hash rest (f1.path :: res.2) counter
      else (SIMILAR_PFX ++ decStr counter, f1.path :: res.1) ::
        simLoop check hash rest (f1.path :: res.2) (counter + 1)

/-- sort_by_similarity; the content hasher is passed explicitly. -/
def sort_by_similarity (files : List FileD) (check : Bool) (hash : Str → Str) :
    List (Str × List Str) :=
  simLoop check hash files [] 1

/-! move_duplicates (main.py lines 314-340). A candidate carries its
path, byte size and content digest; hash_file is modelled by the digest
field (equal digests mean byte-identical contents). Python's by_hash
groups hold paths, as modelled here. -/

/-- A name-collision duplicate candidate. -/
structure DupFile where
  path : Str
  size : Nat
  digest : Nat
deriving DecidableEq

/-- The by_hash grouping loop: hash and group every candidate whose
size is positive; a zero-byte candidate is never hashed or grouped. -/
def byHash (dups : List DupFile) : List (Nat × List Str) :=
  dups.foldl (fun d f => if f.size > 0 then dictAppend d f.digest f.path else d) []

/-- The refined duplicate list: under check_contents, the members of
digest groups with two or more files, in dict-then-group order;
otherwise every candidate path. -/
def refineDups (check : Bool) (dups : List DupFile) : List Str :=
  if check then valsJoin ((byHash dups).filter (fun p => p.2.length > 1))
  else dups.map DupFile.path

/-- The move loop of move_duplicates: each surviving duplicate is moved
into the Duplicates folder by safe_move_file with the "Dupe_" prefix.
(The loop body also computes an ordinal-indexed dest_path and counter,
but never passes them to the move; that dead computation is the subject
of C4 and is modelled by `dupeOrdinalName`.) -/
def moveDupsLoop (folder : Str) : List Str → List Str → List (Str × Str) × List Str
  | [], fs => ([], fs)
  | p :: rest, fs =>
    let dest := safe_move_dest fs folder (DUPE_PFX ++ ['_']) (basename p)
    let res := moveDupsLoop folder rest (dest :: fs.erase p)
    ((p, dest) :: res.1, res.2)

/-- The destination name the dead dest_path computation in the loop
builds: `os.path.join(dup_folder, f"Dupe{i}_{base_name}")`. -/
def dupeOrdinalName (folder : Str) (i : Nat) (p : Str) : Str :=
  joinP folder (DUPE_PFX ++ decStr i ++ '_' :: basename p)

/-- move_duplicates: `none` when the candidate list is empty (no folder
created); otherwise the Duplicates folder is created under base_path
and the refined duplicates are moved, yielding the (source,
destination) pairs and the final filesystem. -/
def move_duplicates (dups : List DupFile) (base : Str) (check : Bool) (fs : List Str) :
    Option (List (Str × Str) × List Str) :=
  if dups.isEmpty then none
  else some (moveDupsLoop (joinP base DUPLICATES_FOLDER) (refineDups check dups) fs)

/-- The group stored under key k, empty when the key is absent. -/
def lookupD {α β : Type} [DecidableEq α] (d : List (α × List β)) (k : α) : List β :=
  ((d.filter (fun p => p.1 = k)).map Prod.snd).flatten

/-! organize_files, move pass (main.py lines 255-284). -/

/-- Model of path.rsplit('/', 1)[0], the parent used by the
effective-root fallback. -/
def dirOf (p : Str) : Str :=
  match lastIdx '/' p with
  | none => p
  | some i => p.take i

/-- The fallback root `suggestions[next(iter(suggestions))][0].rsplit('/', 1)[0]`:
next() on an empty dict raises StopIteration before any guard, and
indexing an empty first group raises IndexError; both surface as errors. -/
def fallbackRoot (sugg : List (Str × List Str)) : Except Unit Str :=
  match sugg with
  | [] => .error ()
  | (_, ps) :: _ =>
    match ps with
    | [] => .error ()
    | p :: _ => .ok (dirOf p)

/-- `base_path or <fallback>`: None and the empty string are falsy. -/
def effective_root (sugg : List (Str × List Str)) (base_path : Option Str) :
    Except Unit Str :=
  match base_path with
  | some bp => if bp.isEmpty then fallbackRoot sugg else .ok bp
  | none => fallbackRoot sugg

/-- State threaded through the move pass: the existing paths, the
folders passed to os.makedirs, and the performed (source, destination)
moves. -/
structure MoveState where
  fs : List Str
  made : List Str
  moves : List (Str × Str)
deriving DecidableEq

/-- The move pass of organize_files: derive the effective root, then
for each suggestion group create its folder (the label itself when it
equals the root, else a subfolder of the root) and move each file into
it with safe_move_file. Per-file failures are caught in the code and do
not stop the loop; the model's moves always succeed. -/
def organize_move_pass (sugg : List (Str × List Str)) (base_path : Option Str)
    (fs : List Str) : Except Unit MoveState :=
  match effective_root sugg base_path with
  | .error e => .error e
  | .ok root =>
    .ok (sugg.foldl (fun st ep =>
      let folder := if ep.1 = root then ep.1 else joinP root ep.1
      ep.2.foldl (fun st2 p =>
        { fs := safe_move_dest st2.fs folder [] (basename p) :: st2.fs.erase p
          made := st2.made
          moves := st2.moves ++ [(p, safe_move_dest st2.fs folder [] (basename p))] })
        { st with made := st.made ++ [folder] })
      { fs := fs, made := [], moves := [] })

/-! organize_files, empty-folder reconciliation (main.py lines
286-312), on the tree of entries under the root after the move pass.
os.walk(topdown=False) visits children before parents, and the code
re-lists each directory live (`not os.listdir(root)`), so a directory
emptied by its children's relocation is itself relocated; the root and
the Empty Folders directory itself are excluded by the walk's guards.
The model assumes no pre-existing root-level "Empty Folders" entry. -/

/-- Name of a directory entry. -/
def entryName : FSEntry → Str
  | .file n => n
  | .dir n _ => n

/-- The pre-check walk: does any strict subdirectory have no entries? -/
def anyEmptyDir : List FSEntry → Bool
  | [] => false
  | .file _ :: es => anyEmptyDir es
  | .dir _ cs :: es => cs.isEmpty || anyEmptyDir cs || anyEmptyDir es

/-- The delete_empty branch: bottom-up deletion with live re-listing
(a directory emptied by its children's deletion is itself deleted). -/
def deleteEmpty : List FSEntry → List FSEntry
  | [] => []
  | .file n :: es => .file n :: deleteEmpty es
  | .dir n cs :: es =>
    let cs2 := deleteEmpty cs
    if cs2.isEmpty then deleteEmpty es
    else .dir n cs2 :: deleteEmpty es

/-- The move branch walk: children first, then the directory itself; an
empty directory is moved under Empty Folders by its base name, but a
second empty directory whose name is already taken there stays in place
(shutil.move raises on an existing destination; safe_move_folder logs
it). Returns the surviving entries and the names accumulated under
Empty Folders, in move order. -/
def cleanupMove : List FSEntry → List Str → List FSEntry × List Str
  | [], acc => ([], acc)
  | .file n :: es, acc =>
    let r := cleanupMove es acc
    (.file n :: r.1, r.2)
  | .dir n cs :: es, acc =>
    let rc := cleanupMove cs acc
    if rc.1.isEmpty then
      if n ∈ rc.2 then
        let r := cleanupMove es rc.2
        (.dir n [] :: r.1, r.2)
      else
        let r := cleanupMove es (rc.2 ++ [n])
        (r.1, r.2)
    else
      let r := cleanupMove es rc.2
      (.dir n rc.1 :: r.1, r.2)

/-- The cleanup phase of organize_files, lines 286-312. -/
def cleanup_phase (recursive cleanup delete_empty : Bool) (es : List FSEntry) :
    List FSEntry :=
  if recursive && cleanup then
    if anyEmptyDir es then
      if delete_empty then deleteEmpty es
      else
        (cleanupMove es []).1 ++
          [.dir EMPTY_FOLDERS_FOLDER ((cleanupMove es []).2.map (fun n => .dir n []))]
    else es
  else es

/-- A subtree list containing no file at any depth: exactly the
directories the live bottom-up walk ends up relocating. -/
def fileFree : List FSEntry → Bool
  | [] => true
  | .file _ :: _ => false
  | .dir _ cs :: es => fileFree cs && fileFree es

/-- The entries left behind once every file-free directory is moved
away. -/
def pruneFree : List FSEntry → List FSEntry
  | [] => []
  | .file n :: es => .file n :: pruneFree es
  | .dir n cs :: es =>
    if fileFree cs then pruneFree es else .dir n (pruneFree cs) :: pruneFree es

/-- Names of the relocatable (file-free) strict subdirectories, in walk
order. -/
def relocatable : List FSEntry → List Str
  | [] => []
  | .file _ :: es => relocatable es
  | .dir n cs :: es =>
    relocatable cs ++ (if fileFree cs then [n] else []) ++ relocatable es

/-- Names of the literally empty strict subdirectories (the directories
that are empty right after the move pass). -/
def emptyDirNames : List FSEntry → List Str
  | [] => []
  | .file _ :: es => emptyDirNames es
  | .dir n cs :: es =>
    (if cs.isEmpty then [n] else []) ++ emptyDirNames cs ++ emptyDirNames es

theorem lastIdx_eq_none_iff (c : Char) (s : Str) : lastIdx c s = none ↔ c ∉ s := by
  induction s with
  | nil => simp [lastIdx]
  | cons x xs ih =>
    simp only [lastIdx]
    cases h : lastIdx c xs with
    | some i =>
      have hc : c ∈ xs := by
        by_contra hc
        rw [ih.mpr hc] at h
        exact Option.noConfusion h
      simp [hc]
    | none =>
      have hx := ih.mp h
      by_cases hxc : x = c
      · simp [hxc]
      · simp only [hxc, if_neg hxc, List.mem_cons]
        constructor
        · intro _ hmem
          rcases hmem with h1 | h2
          · exact hxc h1.symm
          · exact hx h2
        · intro; trivial

theorem lastIdx_lt_length (c : Char) (s : Str) (i : Nat) (h : lastIdx c s = some i) :
    i < s.length := by
  induction s generalizing i with
  | nil => simp [lastIdx] at h
  | cons x xs ih =>
    simp only [lastIdx] at h
    cases h2 : lastIdx c xs with
    | some j =>
      rw [h2] at h
      injection h with h
      have := ih j h2
      simp only [List.length_cons]
      omega
    | none =>
      rw [h2] at h
      by_cases hxc : x = c
      · simp only [hxc, if_pos rfl] at h
        injection h with h
        simp only [List.length_cons]
        omega
      · simp [hxc] at h

theorem extOf_eq_amended (name : Str) (h : '/' ∉ name) :
    extOf name = extSpecAmended name := by
  have hs : lastIdx '/' name = none := (lastIdx_eq_none_iff _ _).mpr h
  cases hd : lastIdx '.' name with
  | none =>
    have hsplit : splitext name = (name, []) := by
      unfold splitext
      simp [hs, hd]
    simp [extOf, extSpecAmended, hsplit, hd, lowerStr]
  | some d =>
    have hlt := lastIdx_lt_length '.' name d hd
    have hneg : (-1 : Int) < (d : Int) := by omega
    by_cases hmid : ∃ x ∈ name.take d, ¬ x = '.'
    · have hsplit : splitext name = (name.take d, name.drop d) := by
        unfold splitext
        rw [hs, hd]
        norm_num
        rw [if_pos hneg, if_pos hmid]
      have hlow : lowerStr (name.drop d) ≠ [] := by
        simp only [lowerStr, ne_eq, List.map_eq_nil_iff, List.drop_eq_nil_iff]
        omega
      simp only [extOf, extSpecAmended, hsplit, hd]
      simp [hlow, hmid]
    · have hsplit : splitext name = (name, []) := by
        unfold splitext
        rw [hs, hd]
        norm_num
        intro _ x hx hxdot
        exact absurd ⟨x, hx, hxdot⟩ hmid
      simp only [extOf, extSpecAmended, hsplit, hd]
      simp [lowerStr, hmid, NO_EXT]

/-- C8: corrected. The claim's reading of the extension rule fails on
dotfiles: for the filename ".bashrc" the code derives the sentinel
(CPython splitext treats leading dots as part of the root), while the
claim's rule ("substring after the last dot, including the dot") would
derive ".bashrc". -/
theorem C8_counterexample : extOf (strL ".bashrc") ≠ extSpecClaim (strL ".bashrc") := by
  decide

/-- C8 (amended): for every slash-free filename, the scanner's derived
extension is the lowercased substring from the last dot whenever some
non-dot character precedes that dot, and the sentinel NO_EXT otherwise
(no dot at all, or only leading dots as in dotfiles); a lone trailing
dot therefore yields the extension "." rather than the sentinel. -/
theorem C8_extension_derivation (name : Str) (h : '/' ∉ name) :
    extOf name = extSpecAmended name :=
  extOf_eq_amended name h

theorem C8_extension_derivation_witness :
    '/' ∉ strL "foo." ∧ extOf (strL "foo.") = extSpecAmended (strL "foo.") :=
  ⟨by decide, C8_extension_derivation (strL "foo.") (by decide)⟩

theorem decAux_append (fuel : Nat) : ∀ n acc, decAux fuel n acc = decAux fuel n [] ++ acc := by
  induction fuel with
  | zero => intro n acc; simp [decAux]
  | succ fuel ih =>
    intro n acc
    by_cases h : n < 10
    · simp [decAux, h]
    · simp only [decAux, if_neg h]
      rw [ih (n / 10) (Nat.digitChar (n % 10) :: acc),
          ih (n / 10) [Nat.digitChar (n % 10)]]
      simp

theorem decAux_fuel (f : Nat) : ∀ g n acc, n < 10 ^ f → n < 10 ^ g →
    decAux (f + 1) n acc = decAux (g + 1) n acc := by
  induction f with
  | zero =>
    intro g n acc hf _
    have hn : n = 0 := by simpa using hf
    subst hn
    cases g <;> simp [decAux]
  | succ f ih =>
    intro g n acc hf hg
    by_cases h : n < 10
    · cases g with
      | zero =>
        have hn : n = 0 := by simpa using hg
        subst hn
        simp [decAux]
      | succ g => simp [decAux, h]
    · cases g with
      | zero =>
        exfalso
        have : n = 0 := by simpa using hg
        omega
      | succ g =>
        have hg1 : ¬ (n < 10) := h
        simp only [decAux, if_neg hg1]
        have hdf : n / 10 < 10 ^ f := by
          rw [Nat.div_lt_iff_lt_mul (by norm_num)]
          calc n < 10 ^ (f + 1) := hf
          _ = 10 ^ f * 10 := by ring
        have hdg : n / 10 < 10 ^ g := by
          rw [Nat.div_lt_iff_lt_mul (by norm_num)]
          calc n < 10 ^ (g + 1) := hg
          _ = 10 ^ g * 10 := by ring
        cases f with
        | zero => exfalso; simp at hdf; omega
        | succ f' =>
          cases g with
          | zero => exfalso; simp at hdg; omega
          | succ g' => exact ih _ _ _ hdf hdg

theorem decVal_digit : ∀ m, m < 10 → decVal [Nat.digitChar m] = m := by decide

theorem decVal_decStr (n : Nat) : decVal (decStr n) = n := by
  induction n using Nat.strong_induction_on with
  | _ n ih =>
    by_cases h : n < 10
    · have hstep : decStr n = [Nat.digitChar n] := by
        simp [decStr, decAux, h]
      rw [hstep]
      exact decVal_digit n h
    · have h10 : 10 ≤ n := by omega
      have hdiv : n / 10 < n := Nat.div_lt_self (by omega) (by norm_num)
      have hstep : decStr n = decStr (n / 10) ++ [Nat.digitChar (n % 10)] := by
        have h1 : decStr n = decAux n (n / 10) [Nat.digitChar (n % 10)] := by
          simp [decStr, decAux, h]
        rw [h1, decAux_append]
        congr 1
        cases n with
        | zero => omega
        | succ m =>
          have hm : m + 1 = m + 1 := rfl
          show decAux (m + 1) ((m + 1) / 10) [] = decStr ((m + 1) / 10)
          unfold decStr
          apply decAux_fuel
          · calc (m + 1) / 10 ≤ m := by omega
            _ < 10 ^ m := Nat.lt_pow_self (by norm_num) m
          · exact Nat.lt_pow_self (by norm_num) _
      rw [hstep]
      unfold decVal
      rw [List.foldl_append]
      have hrec : List.foldl (fun acc c => acc * 10 + (c.toNat - 48)) 0 (decStr (n / 10))
          = n / 10 := ih (n / 10) hdiv
      rw [hrec]
      simp only [List.foldl_cons, List.foldl_nil]
      have hdc : (Nat.digitChar (n % 10)).toNat - 48 = n % 10 := by
        have hlt : n % 10 < 10 := Nat.mod_lt _ (by norm_num)
        have := decVal_digit (n % 10) hlt
        simpa [decVal] using this
      rw [hdc]
      omega

theorem decStr_inj : Function.Injective decStr := by
  intro a b h
  rw [← decVal_decStr a, h, decVal_decStr]

theorem splitext_append (p : Str) : (splitext p).1 ++ (splitext p).2 = p := by
  unfold splitext
  dsimp only
  split_ifs <;> simp [List.take_append_drop]

theorem joinP_inj (folder : Str) {x y : Str} (h : joinP folder x = joinP folder y) : x = y := by
  unfold joinP at h
  have h2 := List.append_cancel_left h
  exact (List.cons.injEq _ _ _ _ ▸ h2).2

theorem moveCandidate_inj (folder pfx base : Str) :
    Function.Injective (moveCandidate folder pfx base) := by
  intro a b h
  have hsp := congrArg List.length (splitext_append base)
  simp only [List.length_append] at hsp
  match a, b with
  | 0, 0 => rfl
  | 0, k + 1 =>
    exfalso
    have h2 := joinP_inj folder h
    have hlen := congrArg List.length h2
    simp only [List.length_append, List.length_cons] at hlen
    omega
  | k + 1, 0 =>
    exfalso
    have h2 := joinP_inj folder h
    have hlen := congrArg List.length h2
    simp only [List.length_append, List.length_cons] at hlen
    omega
  | k + 1, j + 1 =>
    have h2 := joinP_inj folder h
    have h3 := List.append_cancel_left h2
    have h4 : decStr (k + 1) ++ (splitext base).2 = decStr (j + 1) ++ (splitext base).2 := by
      have := (List.cons.injEq _ _ _ _ ▸ h3).2
      exact this
    have h5 := List.append_cancel_right h4
    have := decStr_inj h5
    omega

theorem exists_free_candidate (fs : List Str) (folder pfx base : Str) :
    ∃ j, j ≤ fs.length ∧ moveCandidate folder pfx base j ∉ fs := by
  by_contra hcon
  push_neg at hcon
  have hsub : ((List.range (fs.length + 1)).map (moveCandidate folder pfx base)) ⊆ fs := by
    intro x hx
    simp only [List.mem_map, List.mem_range] at hx
    obtain ⟨j, hj, rfl⟩ := hx
    exact hcon j (by omega)
  have hnd : ((List.range (fs.length + 1)).map (moveCandidate folder pfx base)).Nodup :=
    (List.nodup_range _).map (moveCandidate_inj folder pfx base)
  have hle := (hnd.subperm hsub).length_le
  simp at hle

theorem findFreeDest_spec (fs : List Str) (folder pfx base : Str) :
    ∀ fuel k, (∃ j, k ≤ j ∧ j ≤ k + fuel ∧ moveCandidate folder pfx base j ∉ fs) →
    ∃ K, k ≤ K ∧ findFreeDest fs folder pfx base fuel k = moveCandidate folder pfx base K ∧
      moveCandidate folder pfx base K ∉ fs ∧
      ∀ j, k ≤ j → j < K → moveCandidate folder pfx base j ∈ fs := by
  intro fuel
  induction fuel with
  | zero =>
    rintro k ⟨j, hkj, hjk, hfree⟩
    have hjeq : j = k := by omega
    subst hjeq
    exact ⟨j, le_refl j, rfl, hfree, fun j' h1 h2 => absurd h2 (by omega)⟩
  | succ fuel ih =>
    rintro k ⟨j, hkj, hjk, hfree⟩
    by_cases hmem : moveCandidate folder pfx base k ∈ fs
    · have hjne : j ≠ k := by
        intro hc
        subst hc
        exact hfree hmem
      obtain ⟨K, hK1, hK2, hK3, hK4⟩ := ih (k + 1) ⟨j, by omega, by omega, hfree⟩
      refine ⟨K, by omega, ?_, hK3, ?_⟩
      · simp [findFreeDest, hmem, hK2]
      · intro j' h1 h2
        rcases Nat.eq_or_lt_of_le h1 with heq | h1'
        · rw [← heq]; exact hmem
        · exact hK4 j' (by omega) h2
    · exact ⟨k, le_refl _, by simp [findFreeDest, hmem], hmem,
        fun j' h1 h2 => absurd h2 (by omega)⟩

theorem safe_move_dest_spec (fs : List Str) (folder pfx base : Str) :
    safe_move_dest fs folder pfx base ∉ fs ∧
    ∃ K, safe_move_dest fs folder pfx base = moveCandidate folder pfx base K ∧
      ∀ j, j < K → moveCandidate folder pfx base j ∈ fs := by
  obtain ⟨j, hj, hfree⟩ := exists_free_candidate fs folder pfx base
  obtain ⟨K, _, h2, h3, h4⟩ := findFreeDest_spec fs folder pfx base (fs.length + 1) 0
    ⟨j, Nat.zero_le _, by omega, hfree⟩
  refine ⟨?_, K, ?_, ?_⟩
  · rw [safe_move_dest, h2]; exact h3
  · rw [safe_move_dest, h2]
  · intro j' hj'
    exact h4 j' (Nat.zero_le _) hj'

/-- C1: safe_move_file never overwrites an existing destination: the
chosen destination does not already exist; it is the plain name or the
name with the smallest numeric counter (inserted with an underscore
between stem and extension, starting at 1) such that every earlier
candidate, the plain name included, already exists; and a second move
into the same folder, after the first has taken place, always picks a
destination distinct from the first. -/
theorem C1_safe_move_collision_safe (fs : List Str) (folder pfx base : Str) :
    safe_move_dest fs folder pfx base ∉ fs ∧
    (∃ K, safe_move_dest fs folder pfx base = moveCandidate folder pfx base K ∧
      ∀ j, j < K → moveCandidate folder pfx base j ∈ fs) ∧
    (∀ src pfx2 base2, safe_move_dest (safe_move_file fs src folder pfx) folder pfx2 base2 ≠
      safe_move_dest fs folder pfx (basename src)) := by
  obtain ⟨h1, h2⟩ := safe_move_dest_spec fs folder pfx base
  refine ⟨h1, h2, ?_⟩
  intro src pfx2 base2 heq
  have hfree := (safe_move_dest_spec (safe_move_file fs src folder pfx) folder pfx2 base2).1
  rw [heq] at hfree
  exact hfree (List.mem_cons_self _ _)

theorem mkFileD_name (p : Str) : (mkFileD p).name = basename p := rfl

theorem dedupScan_not_seen : ∀ (ps seen : List Str) (fd : FileD),
    fd ∈ (dedupScan ps seen).1 → fd.name ∉ seen := by
  intro ps
  induction ps with
  | nil => intro seen fd h; simp [dedupScan] at h
  | cons p ps ih =>
    intro seen fd h
    by_cases hmem : basename p ∈ seen
    · simp only [dedupScan, if_pos hmem] at h
      exact ih seen fd h
    · simp only [dedupScan, if_neg hmem] at h
      rcases List.mem_cons.mp h with heq | htl
      · subst heq
        rw [mkFileD_name]
        exact hmem
      · intro hc
        exact (ih _ fd htl) (List.mem_cons_of_mem _ hc)

theorem dedupScan_names_nodup : ∀ (ps seen : List Str),
    ((dedupScan ps seen).1.map FileD.name).Nodup := by
  intro ps
  induction ps with
  | nil => intro seen; simp [dedupScan]
  | cons p ps ih =>
    intro seen
    by_cases hmem : basename p ∈ seen
    · simp only [dedupScan, if_pos hmem]
      exact ih seen
    · simp only [dedupScan, if_neg hmem, List.map_cons]
      refine List.nodup_cons.mpr ⟨?_, ih _⟩
      intro hc
      simp only [List.mem_map] at hc
      obtain ⟨fd, hfd, heq⟩ := hc
      have hns := dedupScan_not_seen ps _ fd hfd
      rw [heq, mkFileD_name] at hns
      exact hns (List.mem_cons_self _ _)

theorem dedupScan_first : ∀ (ps seen : List Str) (fd : FileD),
    fd ∈ (dedupScan ps seen).1 →
    fd = mkFileD fd.path ∧
    ∃ pre post, ps = pre ++ fd.path :: post ∧ ∀ q ∈ pre, basename q ≠ fd.name := by
  intro ps
  induction ps with
  | nil => intro seen fd h; simp [dedupScan] at h
  | cons p ps ih =>
    intro seen fd h
    by_cases hmem : basename p ∈ seen
    · simp only [dedupScan, if_pos hmem] at h
      obtain ⟨h1, pre, post, h2, h3⟩ := ih seen fd h
      refine ⟨h1, p :: pre, post, by rw [h2]; rfl, ?_⟩
      intro q hq
      rcases List.mem_cons.mp hq with heq | htl
      · subst heq
        intro hc
        have hns := dedupScan_not_seen ps seen fd h
        rw [← hc] at hns
        exact hns hmem
      · exact h3 q htl
    · simp only [dedupScan, if_neg hmem] at h
      rcases List.mem_cons.mp h with heq | htl
      · subst heq
        exact ⟨rfl, [], ps, rfl, by intro q hq; simp at hq⟩
      · obtain ⟨h1, pre, post, h2, h3⟩ := ih _ fd htl
        refine ⟨h1, p :: pre, post, by rw [h2]; rfl, ?_⟩
        intro q hq
        rcases List.mem_cons.mp hq with heq | htl2
        · subst heq
          intro hc
          have hns := dedupScan_not_seen ps _ fd htl
          rw [← hc] at hns
          exact hns (List.mem_cons_self _ _)
        · exact h3 q htl2

theorem dedupScan_total : ∀ (ps seen : List Str) (p : Str), p ∈ ps →
    (∃ fd ∈ (dedupScan ps seen).1, fd.path = p) ∨ p ∈ (dedupScan ps seen).2 := by
  intro ps
  induction ps with
  | nil => intro seen p h; simp at h
  | cons q ps ih =>
    intro seen p h
    by_cases hmem : basename q ∈ seen
    · simp only [dedupScan, if_pos hmem]
      rcases List.mem_cons.mp h with heq | htl
      · subst heq
        right
        exact List.mem_cons_self _ _
      · rcases ih seen p htl with ⟨fd, h1, h2⟩ | hdup
        · exact Or.inl ⟨fd, h1, h2⟩
        · exact Or.inr (List.mem_cons_of_mem _ hdup)
    · simp only [dedupScan, if_neg hmem]
      rcases List.mem_cons.mp h with heq | htl
      · subst heq
        exact Or.inl ⟨mkFileD p, List.mem_cons_self _ _, rfl⟩
      · rcases ih (basename q :: seen) p htl with ⟨fd, h1, h2⟩ | hdup
        · exact Or.inl ⟨fd, List.mem_cons_of_mem _ h1, h2⟩
        · exact Or.inr hdup

theorem dedupScan_dups : ∀ (ps seen : List Str) (p : Str), p ∈ (dedupScan ps seen).2 →
    basename p ∈ seen ∨ ∃ fd ∈ (dedupScan ps seen).1, fd.name = basename p := by
  intro ps
  induction ps with
  | nil => intro seen p h; simp [dedupScan] at h
  | cons q ps ih =>
    intro seen p h
    by_cases hmem : basename q ∈ seen
    · simp only [dedupScan, if_pos hmem] at h ⊢
      rcases List.mem_cons.mp h with heq | htl
      · subst heq
        exact Or.inl hmem
      · exact ih seen p htl
    · simp only [dedupScan, if_neg hmem] at h ⊢
      rcases ih _ p h with hseen | ⟨fd, h1, h2⟩
      · rcases List.mem_cons.mp hseen with heq | htl
        · right
          exact ⟨mkFileD q, List.mem_cons_self _ _, by rw [mkFileD_name, heq]⟩
        · exact Or.inl htl
      · exact Or.inr ⟨fd, List.mem_cons_of_mem _ h1, h2⟩

/-- C2: in either scan mode, the first file in traversal order with a
given base filename becomes the unique descriptor for that name: the
descriptor names are pairwise distinct (at most one descriptor per base
filename); every descriptor's path is the first stream entry carrying
its base name; every scanned path either owns a descriptor or lands in
the duplicates list; and every duplicate shares its base name with some
(earlier) descriptor and produces no descriptor of its own. -/
theorem C2_first_file_wins (root : Str) (entries : List FSEntry) (recursive : Bool) :
    ((get_file_info root entries recursive).1.map FileD.name).Nodup ∧
    (∀ fd ∈ (get_file_info root entries recursive).1,
       fd.name = basename fd.path ∧
       ∃ pre post, scanList root (!recursive) entries = pre ++ fd.path :: post ∧
         ∀ q ∈ pre, basename q ≠ fd.name) ∧
    (∀ p ∈ scanList root (!recursive) entries,
       (∃ fd ∈ (get_file_info root entries recursive).1, fd.path = p) ∨
       p ∈ (get_file_info root entries recursive).2) ∧
    (∀ p ∈ (get_file_info root entries recursive).2,
       ∃ fd ∈ (get_file_info root entries recursive).1, fd.name = basename p) := by
  refine ⟨dedupScan_names_nodup _ _, ?_, ?_, ?_⟩
  · intro fd hfd
    obtain ⟨h1, pre, post, h2, h3⟩ := dedupScan_first _ _ fd hfd
    refine ⟨?_, pre, post, h2, h3⟩
    rw [h1, mkFileD_name]
    rw [h1] at hfd ⊢
    rfl
  · intro p hp
    exact dedupScan_total _ _ p hp
  · intro p hp
    rcases dedupScan_dups _ _ p hp with hseen | hex
    · simp at hseen
    · exact hex

theorem map_keep_keys {α β : Type} [DecidableEq α] (d : List (α × β)) (k : α)
    (f : α × β → β) :
    keysOf (d.map (fun p => if p.1 = k then (p.1, f p) else p)) = keysOf d := by
  induction d with
  | nil => rfl
  | cons e d ih =>
    simp only [List.map_cons, keysOf] at ih ⊢
    by_cases h : e.1 = k
    · simp [h, ih]
    · simp [h, ih]

theorem map_update_of_not_mem {α β : Type} [DecidableEq α] (d : List (α × β)) (k : α)
    (f : α × β → α × β) (h : k ∉ keysOf d) :
    d.map (fun p => if p.1 = k then f p else p) = d := by
  induction d with
  | nil => rfl
  | cons e d ih =>
    simp only [keysOf, List.map_cons, List.mem_cons] at h
    push_neg at h
    simp only [List.map_cons, if_neg (Ne.symm h.1)]
    rw [ih h.2]

theorem keysOf_dictAppend {α β : Type} [DecidableEq α] (d : List (α × List β)) (k : α)
    (v : β) :
    keysOf (dictAppend d k v) = if k ∈ keysOf d then keysOf d else keysOf d ++ [k] := by
  unfold dictAppend
  by_cases h : k ∈ keysOf d
  · rw [if_pos h, if_pos h]
    exact map_keep_keys d k _
  · rw [if_neg h, if_neg h]
    simp [keysOf]

theorem keysOf_dictSet {α β : Type} [DecidableEq α] (d : List (α × β)) (k : α) (v : β) :
    keysOf (dictSet d k v) = if k ∈ keysOf d then keysOf d else keysOf d ++ [k] := by
  unfold dictSet
  by_cases h : k ∈ keysOf d
  · rw [if_pos h, if_pos h]
    exact map_keep_keys d k _
  · rw [if_neg h, if_neg h]
    simp [keysOf]

theorem nodup_append_singleton {α : Type} (l : List α) (k : α) (h : l.Nodup)
    (hk : k ∉ l) : (l ++ [k]).Nodup := by
  have hperm : (l ++ [k]).Perm (k :: l) := List.perm_append_singleton k l
  exact hperm.nodup_iff.mpr (List.nodup_cons.mpr ⟨hk, h⟩)

theorem keysOf_dictAppend_nodup {α β : Type} [DecidableEq α] (d : List (α × List β))
    (k : α) (v : β) (h : (keysOf d).Nodup) : (keysOf (dictAppend d k v)).Nodup := by
  rw [keysOf_dictAppend]
  by_cases hk : k ∈ keysOf d
  · rwa [if_pos hk]
  · rw [if_neg hk]
    exact nodup_append_singleton _ _ h hk

theorem keysOf_dictSet_nodup {α β : Type} [DecidableEq α] (d : List (α × β))
    (k : α) (v : β) (h : (keysOf d).Nodup) : (keysOf (dictSet d k v)).Nodup := by
  rw [keysOf_dictSet]
  by_cases hk : k ∈ keysOf d
  · rwa [if_pos hk]
  · rw [if_neg hk]
    exact nodup_append_singleton _ _ h hk

theorem dictSet_fresh {α β : Type} [DecidableEq α] (d : List (α × β)) (k : α) (v : β)
    (h : k ∉ keysOf d) : dictSet d k v = d ++ [(k, v)] := by
  unfold dictSet
  rw [if_neg h]

theorem valsJoin_append {α β : Type} (d e : List (α × List β)) :
    valsJoin (d ++ e) = valsJoin d ++ valsJoin e := by
  simp [valsJoin]

theorem valsJoin_dictAppend {α β : Type} [DecidableEq α] (d : List (α × List β)) (k : α)
    (v : β) (h : (keysOf d).Nodup) :
    (valsJoin (dictAppend d k v)).Perm (valsJoin d ++ [v]) := by
  unfold dictAppend
  by_cases hk : k ∈ keysOf d
  · rw [if_pos hk]
    induction d with
    | nil => simp [keysOf] at hk
    | cons e d ih =>
      simp only [keysOf, List.map_cons, List.mem_cons] at hk
      simp only [keysOf, List.map_cons, List.nodup_cons] at h
      by_cases he : e.1 = k
      · simp only [List.map_cons, if_pos he]
        have hrest : k ∉ keysOf d := by
          rw [← he]
          exact h.1
        rw [map_update_of_not_mem d k _ hrest]
        simp only [valsJoin, List.map_cons, List.flatten_cons]
        rw [List.append_assoc, List.append_assoc]
        exact List.Perm.append_left _ List.perm_append_comm
      · have hk2 : k ∈ keysOf d := by
          rcases hk with h1 | h2
          · exact absurd h1.symm he
          · exact h2
        simp only [List.map_cons, if_neg he]
        simp only [valsJoin, List.map_cons, List.flatten_cons] at ih ⊢
        rw [List.append_assoc]
        exact List.Perm.append_left _ (ih h.2 hk2)
  · rw [if_neg hk, valsJoin_append]
    simp [valsJoin]

theorem dictAppend_groups_ne_nil {α β : Type} [DecidableEq α] (d : List (α × List β))
    (k : α) (v : β) (h : ∀ e ∈ d, e.2 ≠ []) : ∀ e ∈ dictAppend d k v, e.2 ≠ [] := by
  unfold dictAppend
  by_cases hk : k ∈ keysOf d
  · rw [if_pos hk]
    intro e he
    simp only [List.mem_map] at he
    obtain ⟨p, hp, rfl⟩ := he
    by_cases hpk : p.1 = k
    · simp only [if_pos hpk]
      simp
    · simp only [if_neg hpk]
      exact h p hp
  · rw [if_neg hk]
    intro e he
    rcases List.mem_append.mp he with h1 | h2
    · exact h e h1
    · simp only [List.mem_singleton] at h2
      subst h2
      simp

theorem byType_fold_invariant (files : List FileD) :
    ∀ (d : List (Str × List Str)), (keysOf d).Nodup → (∀ e ∈ d, e.2 ≠ []) →
    (keysOf (files.foldl (fun d f => dictAppend d f.ext f.path) d)).Nodup ∧
    (∀ e ∈ files.foldl (fun d f => dictAppend d f.ext f.path) d, e.2 ≠ []) ∧
    (valsJoin (files.foldl (fun d f => dictAppend d f.ext f.path) d)).Perm
      (valsJoin d ++ files.map FileD.path) ∧
    (∀ k ∈ keysOf (files.foldl (fun d f => dictAppend d f.ext f.path) d),
       k ∈ keysOf d ∨ k ∈ files.map FileD.ext) := by
  induction files with
  | nil =>
    intro d h1 h2
    refine ⟨h1, h2, by simp, fun k hk => Or.inl hk⟩
  | cons f files ih =>
    intro d h1 h2
    simp only [List.foldl_cons]
    obtain ⟨g1, g2, g3, g4⟩ := ih (dictAppend d f.ext f.path)
      (keysOf_dictAppend_nodup d _ _ h1) (dictAppend_groups_ne_nil d _ _ h2)
    refine ⟨g1, g2, ?_, ?_⟩
    · refine g3.trans ?_
      have hva := valsJoin_dictAppend d f.ext f.path h1
      have hstep := hva.append_right (files.map FileD.path)
      rw [List.append_assoc, List.singleton_append] at hstep
      simp only [List.map_cons]
      exact hstep
    · intro k hk
      rcases g4 k hk with hin | hin
      · rw [keysOf_dictAppend] at hin
        by_cases hm : f.ext ∈ keysOf d
        · rw [if_pos hm] at hin
          exact Or.inl hin
        · rw [if_neg hm] at hin
          rcases List.mem_append.mp hin with h3 | h3
          · exact Or.inl h3
          · simp only [List.mem_singleton] at h3
            subst h3
            simp
      · simp only [List.map_cons, List.mem_cons]
        exact Or.inr (Or.inr hin)

theorem byType_keys_nodup (files : List FileD) : (keysOf (byType files)).Nodup :=
  (byType_fold_invariant files [] (by simp [keysOf]) (by simp)).1

theorem byType_groups_ne_nil (files : List FileD) : ∀ e ∈ byType files, e.2 ≠ [] :=
  (byType_fold_invariant files [] (by simp [keysOf]) (by simp)).2.1

theorem byType_perm (files : List FileD) :
    (valsJoin (byType files)).Perm (files.map FileD.path) := by
  have h := (byType_fold_invariant files [] (by simp [keysOf]) (by simp)).2.2.1
  simpa [valsJoin] using h

theorem byType_keys_sub (files : List FileD) :
    ∀ k ∈ keysOf (byType files), k ∈ files.map FileD.ext := by
  intro k hk
  rcases (byType_fold_invariant files [] (by simp [keysOf]) (by simp)).2.2.2 k hk with h | h
  · simp [keysOf] at h
  · exact h

theorem typeKey_head_sentinel : NO_EXTENSION_FOLDER.head? = some 'N' := by decide

theorem typeKey_head_pfx (x : Str) : (TYPE_PFX ++ x).head? = some 'T' := by
  have h : TYPE_PFX = 'T' :: strL "ype " := by decide
  rw [h]
  rfl

theorem typeKey_inj {a b : Str} (ha : a.head? = some '.') (hb : b.head? = some '.')
    (h : typeKey a = typeKey b) : a = b := by
  unfold typeKey at h
  by_cases h1 : a = NO_EXT <;> by_cases h2 : b = NO_EXT
  · rw [h1, h2]
  · rw [if_pos h1, if_neg h2] at h
    exfalso
    have hh := congrArg List.head? h
    rw [typeKey_head_sentinel, typeKey_head_pfx] at hh
    exact absurd hh (by decide)
  · rw [if_neg h1, if_pos h2] at h
    exfalso
    have hh := congrArg List.head? h
    rw [typeKey_head_sentinel, typeKey_head_pfx] at hh
    exact absurd hh (by decide)
  · rw [if_neg h1, if_neg h2] at h
    have h3 := List.append_cancel_left h
    cases a with
    | nil => simp at ha
    | cons x xs =>
      cases b with
      | nil => simp at hb
      | cons y ys =>
        simp only [List.head?] at ha hb
        injection ha with ha
        injection hb with hb
        subst ha
        subst hb
        simp only [List.drop_succ_cons, List.drop_zero] at h3
        rw [h3]

theorem typeKeyU_head_sentinel : (strL "No_Extension").head? = some 'N' := by decide

theorem typeKeyU_head_pfx (x : Str) : (strL "Type_" ++ x).head? = some 'T' := by
  have h : strL "Type_" = 'T' :: strL "ype_" := by decide
  rw [h]
  rfl

theorem typeKeyU_inj {a b : Str} (ha : a.head? = some '.') (hb : b.head? = some '.')
    (h : typeKeyU a = typeKeyU b) : a = b := by
  unfold typeKeyU at h
  by_cases h1 : a = NO_EXT <;> by_cases h2 : b = NO_EXT
  · rw [h1, h2]
  · rw [if_pos h1, if_neg h2] at h
    exfalso
    have hh := congrArg List.head? h
    rw [typeKeyU_head_sentinel, typeKeyU_head_pfx] at hh
    exact absurd hh (by decide)
  · rw [if_neg h1, if_pos h2] at h
    exfalso
    have hh := congrArg List.head? h
    rw [typeKeyU_head_sentinel, typeKeyU_head_pfx] at hh
    exact absurd hh (by decide)
  · rw [if_neg h1, if_neg h2] at h
    have h3 := List.append_cancel_left h
    cases a with
    | nil => simp at ha
    | cons x xs =>
      cases b with
      | nil => simp at hb
      | cons y ys =>
        simp only [List.head?] at ha hb
        injection ha with ha
        injection hb with hb
        subst ha
        subst hb
        simp only [List.drop_succ_cons, List.drop_zero] at h3
        rw [h3]

theorem dictSet_fold_map (keyF : Str → Str) :
    ∀ (l acc : List (Str × List Str)),
    (keysOf acc ++ (keysOf l).map keyF).Nodup →
    l.foldl (fun sugg ep => dictSet sugg (keyF ep.1) ep.2) acc =
      acc ++ l.map (fun ep => (keyF ep.1, ep.2)) := by
  intro l
  induction l with
  | nil => intro acc h; simp
  | cons e l ih =>
    intro acc h
    simp only [keysOf, List.map_cons] at h
    have hfresh : keyF e.1 ∉ keysOf acc := by
      intro hc
      have hd := List.disjoint_of_nodup_append h
      exact hd hc (List.mem_cons_self _ _)
    simp only [List.foldl_cons]
    rw [dictSet_fresh acc _ _ hfresh]
    rw [ih (acc ++ [(keyF e.1, e.2)]) ?_]
    · simp
    · simp only [keysOf, List.map_append, List.map_cons, List.map_nil]
      rw [List.append_assoc]
      simpa using h

theorem rec_fold_perm (bp : Str) :
    ∀ (l acc : List (Str × List Str)),
    (keysOf acc).Nodup →
    (∀ e ∈ l, typeKey e.1 ∉ keysOf acc) →
    ((keysOf l).map typeKey).Nodup →
    (∀ k ∈ (keysOf l).map typeKey, k ≠ bp) →
    (∀ e ∈ l, e.2 ≠ []) →
    (valsJoin (l.foldl (fun sugg ep =>
        if ep.2.length > 1 then dictSet sugg (typeKey ep.1) ep.2
        else dictAppend sugg bp (ep.2.headD [])) acc)).Perm
      (valsJoin acc ++ valsJoin l) := by
  intro l
  induction l with
  | nil =>
    intro acc _ _ _ _ _
    simp [valsJoin]
  | cons e l ih =>
    intro acc hnd hfresh hkeys hbp hne
    simp only [keysOf, List.map_cons, List.nodup_cons] at hkeys
    simp only [List.foldl_cons]
    by_cases hlen : e.2.length > 1
    · rw [if_pos hlen]
      have hf : typeKey e.1 ∉ keysOf acc := hfresh e (List.mem_cons_self _ _)
      rw [dictSet_fresh acc _ _ hf]
      have hres := ih (acc ++ [(typeKey e.1, e.2)])
        (by
          have := nodup_append_singleton (keysOf acc) (typeKey e.1) hnd hf
          simpa [keysOf] using this)
        (by
          intro e' he' hc
          simp only [keysOf, List.map_append, List.map_cons, List.map_nil,
            List.mem_append, List.mem_singleton] at hc
          rcases hc with hc | hc
          · exact hfresh e' (List.mem_cons_of_mem _ he') hc
          · exact hkeys.1 (by
              rw [← hc]
              exact List.mem_map_of_mem typeKey (by
                simpa [keysOf] using List.mem_map_of_mem Prod.fst he')))
        hkeys.2
        (fun k hk => hbp k (List.mem_cons_of_mem _ hk))
        (fun e' he' => hne e' (List.mem_cons_of_mem _ he'))
      refine hres.trans ?_
      rw [valsJoin_append]
      simp only [valsJoin, List.map_cons, List.map_nil, List.flatten_cons,
        List.flatten_nil, List.append_nil, List.append_assoc]
      exact List.Perm.refl _
    · rw [if_neg hlen]
      obtain ⟨v, hv⟩ : ∃ v, e.2 = [v] := by
        have hne2 := hne e (List.mem_cons_self _ _)
        cases he2 : e.2 with
        | nil => exact absurd he2 hne2
        | cons v t =>
          cases t with
          | nil => exact ⟨v, rfl⟩
          | cons w t2 => rw [he2] at hlen; simp at hlen
      have hres := ih (dictAppend acc bp v)
        (keysOf_dictAppend_nodup acc bp v hnd)
        (by
          intro e' he' hc
          rw [keysOf_dictAppend] at hc
          by_cases hm : bp ∈ keysOf acc
          · rw [if_pos hm] at hc
            exact hfresh e' (List.mem_cons_of_mem _ he') hc
          · rw [if_neg hm] at hc
            rcases List.mem_append.mp hc with hc | hc
            · exact hfresh e' (List.mem_cons_of_mem _ he') hc
            · simp only [List.mem_singleton] at hc
              refine hbp (typeKey e'.1) ?_ hc
              exact List.mem_cons_of_mem _ (List.mem_map_of_mem typeKey
                (by simpa [keysOf] using List.mem_map_of_mem Prod.fst he')))
        hkeys.2
        (fun k hk => hbp k (List.mem_cons_of_mem _ hk))
        (fun e' he' => hne e' (List.mem_cons_of_mem _ he'))
      rw [hv]
      refine hres.trans ?_
      have hstep := (valsJoin_dictAppend acc bp v hnd).append_right (valsJoin l)
      refine hstep.trans ?_
      simp only [valsJoin, List.map_cons, List.flatten_cons, hv, List.append_assoc,
        List.singleton_append]
      exact List.Perm.refl _

/-- C3: corrected. The claim's universal partition statement fails for
a base path that coincides with a generated type label: in recursive
mode with base_path "Type txt", the singleton ".md" group is first
appended under the key "Type txt", and the genuine ".txt" group then
overwrites that dict entry, dropping the ".md" path from the output. -/
theorem C3_counterexample :
    strL "/r/a.md" ∈ (([⟨strL "/r/a.md", strL "a.md", strL ".md", []⟩,
        ⟨strL "/r/b.txt", strL "b.txt", strL ".txt", []⟩,
        ⟨strL "/r/c.txt", strL "c.txt", strL ".txt", []⟩] : List FileD).map FileD.path) ∧
    strL "/r/a.md" ∉ valsJoin (sort_by_type
        [⟨strL "/r/a.md", strL "a.md", strL ".md", []⟩,
         ⟨strL "/r/b.txt", strL "b.txt", strL ".txt", []⟩,
         ⟨strL "/r/c.txt", strL "c.txt", strL ".txt", []⟩]
        true (some (strL "Type txt"))) := by
  constructor
  · decide
  · decide

/-- C3 (amended): for every descriptor list whose extensions start with
a dot, and every base path that differs from every generated type
label, sort_by_type partitions the input exactly: the concatenation of
the output groups is a permutation of the input path list (in every
mode); and in non-recursive mode the output is literally one labeled
suggestion per extension group, singleton groups included. -/
theorem C3_partition (files : List FileD) (recursive : Bool) (base_path : Option Str)
    (hdot : ∀ f ∈ files, f.ext.head? = some '.')
    (hbp : ∀ bp, base_path = some bp → ∀ f ∈ files, bp ≠ typeKey f.ext) :
    (valsJoin (sort_by_type files recursive base_path)).Perm (files.map FileD.path) ∧
    (∀ bp2, sort_by_type files false bp2 =
       (byType files).map (fun ep => (typeKey ep.1, ep.2))) := by
  have hkey_dot : ∀ k ∈ keysOf (byType files), k.head? = some '.' := by
    intro k hk
    obtain ⟨f, hf, rfl⟩ := List.mem_map.mp (byType_keys_sub files k hk)
    exact hdot f hf
  have hmapnd : ((keysOf (byType files)).map typeKey).Nodup := by
    refine (byType_keys_nodup files).map_on ?_
    intro a ha b hb hab
    exact typeKey_inj (hkey_dot a ha) (hkey_dot b hb) hab
  have hnonrec : ∀ bp2, sort_by_type files false bp2 =
      (byType files).map (fun ep => (typeKey ep.1, ep.2)) := by
    intro bp2
    unfold sort_by_type
    rw [if_neg (by simp)]
    exact dictSet_fold_map typeKey (byType files) [] (by simpa [keysOf] using hmapnd)
  refine ⟨?_, hnonrec⟩
  have hvm : valsJoin ((byType files).map (fun ep => (typeKey ep.1, ep.2))) =
      valsJoin (byType files) := by
    simp only [valsJoin, List.map_map]
    rfl
  cases recursive with
  | false =>
    rw [hnonrec base_path, hvm]
    exact byType_perm files
  | true =>
    cases base_path with
    | none =>
      have hthis : sort_by_type files true none =
          (byType files).map (fun ep => (typeKey ep.1, ep.2)) := by
        unfold sort_by_type
        rw [if_neg (by simp)]
        exact dictSet_fold_map typeKey (byType files) [] (by simpa [keysOf] using hmapnd)
      rw [hthis, hvm]
      exact byType_perm files
    | some bp =>
      by_cases hemp : bp.isEmpty
      · have hthis : sort_by_type files true (some bp) =
            (byType files).map (fun ep => (typeKey ep.1, ep.2)) := by
          unfold sort_by_type
          rw [if_neg (by simp [hemp])]
          exact dictSet_fold_map typeKey (byType files) [] (by simpa [keysOf] using hmapnd)
        rw [hthis, hvm]
        exact byType_perm files
      · have hef : bp.isEmpty = false := by
          cases hb : bp.isEmpty
          · rfl
          · exact absurd hb hemp
        have hthis : sort_by_type files true (some bp) =
            (byType files).foldl (fun sugg ep =>
              if ep.2.length > 1 then dictSet sugg (typeKey ep.1) ep.2
              else dictAppend sugg bp (ep.2.headD [])) [] := by
          unfold sort_by_type
          rw [if_pos (by simp [hef])]
          rfl
        rw [hthis]
        have hres := rec_fold_perm bp (byType files) []
          (by simp [keysOf])
          (by intro e _ hc; simp [keysOf] at hc)
          hmapnd
          (by
            intro k hk
            obtain ⟨a, ha, rfl⟩ := List.mem_map.mp hk
            obtain ⟨f, hf, rfl⟩ := List.mem_map.mp (byType_keys_sub files a ha)
            exact (hbp bp rfl f hf).symm)
          (byType_groups_ne_nil files)
        refine hres.trans ?_
        simp only [valsJoin, List.map_nil, List.flatten_nil, List.nil_append]
        exact byType_perm files

theorem C3_partition_witness :
    (∀ f ∈ wfilesC3, f.ext.head? = some '.') ∧
    (∀ f ∈ wfilesC3, strL "/r" ≠ typeKey f.ext) ∧
    (valsJoin (sort_by_type wfilesC3 true (some (strL "/r")))).Perm
      (wfilesC3.map FileD.path) :=
  ⟨by decide, by decide,
   (C3_partition wfilesC3 true (some (strL "/r")) (by decide)
     (by
       intro bp h f hf
       injection h with h
       subst h
       revert f
       decide)).1⟩

theorem renameKey_typeKey (e : Str) : renameKey (typeKey e) = typeKeyU e := by
  unfold renameKey typeKey typeKeyU
  by_cases h : e = NO_EXT
  · rw [if_pos h, if_pos rfl, if_pos h]
  · rw [if_neg h, if_neg h]
    have hlen : TYPE_PFX.length = 5 := by decide
    have hne : ¬ (TYPE_PFX ++ e.drop 1 = NO_EXTENSION_FOLDER) := by
      intro hc
      have hh := congrArg List.head? hc
      rw [typeKey_head_pfx, typeKey_head_sentinel] at hh
      exact absurd hh (by decide)
    have htake : (TYPE_PFX ++ e.drop 1).take 5 = TYPE_PFX := by
      rw [← hlen, List.take_left]
    rw [if_neg hne, if_pos htake]
    congr 1

theorem typeKey_ne_bp {bp : Str} (hb1 : bp ≠ NO_EXTENSION_FOLDER)
    (hb2 : bp.take 5 ≠ TYPE_PFX) (a : Str) : typeKey a ≠ bp := by
  unfold typeKey
  by_cases h : a = NO_EXT
  · rw [if_pos h]
    exact fun hc => hb1 hc.symm
  · rw [if_neg h]
    intro hc
    apply hb2
    rw [← hc]
    have hlen : TYPE_PFX.length = 5 := by decide
    rw [← hlen, List.take_left]

theorem typeKeyU_ne_bp {bp : Str} (hb3 : bp ≠ strL "No_Extension")
    (hb4 : bp.take 5 ≠ strL "Type_") (a : Str) : typeKeyU a ≠ bp := by
  unfold typeKeyU
  by_cases h : a = NO_EXT
  · rw [if_pos h]
    exact fun hc => hb3 hc.symm
  · rw [if_neg h]
    intro hc
    apply hb4
    rw [← hc]
    have hlen : (strL "Type_").length = 5 := by decide
    rw [← hlen, List.take_left]

theorem renameKey_bp {bp : Str} (hb1 : bp ≠ NO_EXTENSION_FOLDER)
    (hb2 : bp.take 5 ≠ TYPE_PFX) : renameKey bp = bp := by
  unfold renameKey
  rw [if_neg hb1, if_neg hb2]

theorem keysOf_map_fst {α β : Type} (d : List (α × β)) (g : α → α) :
    keysOf (d.map (fun p => (g p.1, p.2))) = (keysOf d).map g := by
  simp only [keysOf, List.map_map]
  rfl

theorem dictAppend_map_rename {bp : Str} (d : List (Str × List Str)) (v : Str)
    (hbp : renameKey bp = bp)
    (hk : ∀ k ∈ keysOf d, renameKey k = bp → k = bp) :
    (dictAppend d bp v).map (fun p => (renameKey p.1, p.2)) =
      dictAppend (d.map (fun p => (renameKey p.1, p.2))) bp v := by
  have hmem : bp ∈ keysOf (d.map (fun p => (renameKey p.1, p.2))) ↔ bp ∈ keysOf d := by
    rw [keysOf_map_fst]
    constructor
    · intro h
      obtain ⟨k, hk2, hk3⟩ := List.mem_map.mp h
      rw [← hk k hk2 hk3]
      exact hk2
    · intro h
      rw [← hbp]
      exact List.mem_map_of_mem renameKey h
  unfold dictAppend
  by_cases hm : bp ∈ keysOf d
  · rw [if_pos hm, if_pos (hmem.mpr hm)]
    rw [List.map_map, List.map_map]
    apply List.map_congr_left
    intro p hp
    by_cases hpk : p.1 = bp
    · simp [hpk, hbp]
    · have hrk : ¬ (renameKey p.1 = bp) := by
        intro hc
        exact hpk (hk p.1 (List.mem_map_of_mem Prod.fst hp) hc)
      simp only [Function.comp_apply, if_neg hpk, if_neg hrk]
  · rw [if_neg hm, if_neg (fun hc => hm (hmem.mp hc))]
    simp [hbp]

theorem rec_fold_rename (bp : Str) (hb1 : bp ≠ NO_EXTENSION_FOLDER)
    (hb2 : bp.take 5 ≠ TYPE_PFX) (hb3 : bp ≠ strL "No_Extension")
    (hb4 : bp.take 5 ≠ strL "Type_") :
    ∀ (l acc : List (Str × List Str)),
    (∀ e ∈ l, e.1.head? = some '.') →
    ((keysOf l).map typeKey).Nodup →
    (∀ e ∈ l, typeKey e.1 ∉ keysOf acc) →
    (∀ k ∈ keysOf acc, k = bp ∨ ∃ a, a.head? = some '.' ∧ k = typeKey a) →
    l.foldl (fun sugg ep =>
        if ep.2.length > 1 then dictSet sugg (typeKeyU ep.1) ep.2
        else dictAppend sugg bp (ep.2.headD []))
        (acc.map (fun p => (renameKey p.1, p.2))) =
      (l.foldl (fun sugg ep =>
        if ep.2.length > 1 then dictSet sugg (typeKey ep.1) ep.2
        else dictAppend sugg bp (ep.2.headD [])) acc).map
        (fun p => (renameKey p.1, p.2)) := by
  intro l
  induction l with
  | nil => intro acc _ _ _ _; simp
  | cons e l ih =>
    intro acc hdots hnd hfresh hshape
    have hde : e.1.head? = some '.' := hdots e (List.mem_cons_self _ _)
    simp only [keysOf, List.map_cons, List.nodup_cons] at hnd
    simp only [List.foldl_cons]
    by_cases hlen : e.2.length > 1
    · rw [if_pos hlen, if_pos hlen]
      have hfm : typeKey e.1 ∉ keysOf acc := hfresh e (List.mem_cons_self _ _)
      have hfu : typeKeyU e.1 ∉ keysOf (acc.map (fun p => (renameKey p.1, p.2))) := by
        rw [keysOf_map_fst]
        intro hc
        obtain ⟨k, hk2, hk3⟩ := List.mem_map.mp hc
        rcases hshape k hk2 with hkbp | ⟨a, hda, hka⟩
        · subst hkbp
          rw [renameKey_bp hb1 hb2] at hk3
          exact typeKeyU_ne_bp hb3 hb4 e.1 hk3.symm
        · subst hka
          rw [renameKey_typeKey] at hk3
          have := typeKeyU_inj hda hde hk3
          subst this
          exact hfm hk2
      rw [dictSet_fresh _ _ _ hfm, dictSet_fresh _ _ _ hfu]
      have hmapped : (acc ++ [(typeKey e.1, e.2)]).map (fun p => (renameKey p.1, p.2)) =
          acc.map (fun p => (renameKey p.1, p.2)) ++ [(typeKeyU e.1, e.2)] := by
        rw [List.map_append]
        simp [renameKey_typeKey]
      rw [← hmapped]
      apply ih (acc ++ [(typeKey e.1, e.2)])
      · exact fun e' he' => hdots e' (List.mem_cons_of_mem _ he')
      · exact hnd.2
      · intro e' he'
        simp only [keysOf, List.map_append, List.map_cons, List.map_nil,
          List.mem_append, List.mem_singleton]
        push_neg
        constructor
        · exact hfresh e' (List.mem_cons_of_mem _ he')
        · intro hc
          exact hnd.1 (hc ▸ List.mem_map_of_mem typeKey
            (by simpa [keysOf] using List.mem_map_of_mem Prod.fst he'))
      · intro k hk
        simp only [keysOf, List.map_append, List.map_cons, List.map_nil,
          List.mem_append, List.mem_singleton] at hk
        rcases hk with hk | hk
        · exact hshape k hk
        · exact Or.inr ⟨e.1, hde, hk⟩
    · rw [if_neg hlen, if_neg hlen]
      have hcomm := dictAppend_map_rename acc (e.2.headD []) (renameKey_bp hb1 hb2)
        (by
          intro k hk hc
          rcases hshape k hk with hkbp | ⟨a, hda, hka⟩
          · exact hkbp
          · exfalso
            subst hka
            rw [renameKey_typeKey] at hc
            exact typeKeyU_ne_bp hb3 hb4 a hc)
      rw [← hcomm]
      apply ih (dictAppend acc bp (e.2.headD []))
      · exact fun e' he' => hdots e' (List.mem_cons_of_mem _ he')
      · exact hnd.2
      · intro e' he'
        rw [keysOf_dictAppend]
        by_cases hm : bp ∈ keysOf acc
        · rw [if_pos hm]
          exact hfresh e' (List.mem_cons_of_mem _ he')
        · rw [if_neg hm]
          intro hc
          rcases List.mem_append.mp hc with hc | hc
          · exact hfresh e' (List.mem_cons_of_mem _ he') hc
          · simp only [List.mem_singleton] at hc
            exact typeKey_ne_bp hb1 hb2 e'.1 hc
      · intro k hk
        rw [keysOf_dictAppend] at hk
        by_cases hm : bp ∈ keysOf acc
        · rw [if_pos hm] at hk
          exact hshape k hk
        · rw [if_neg hm] at hk
          rcases List.mem_append.mp hk with hk | hk
          · exact hshape k hk
          · simp only [List.mem_singleton] at hk
            exact Or.inl hk

theorem dictSet_fold_map_filter (keyF : Str → Str) :
    ∀ (l acc : List (Str × List Str)),
    (keysOf acc ++ (keysOf (l.filter (fun e => e.2.length > 1))).map keyF).Nodup →
    l.foldl (fun sugg ep =>
        if ep.2.length > 1 then dictSet sugg (keyF ep.1) ep.2 else sugg) acc =
      acc ++ (l.filter (fun e => e.2.length > 1)).map (fun ep => (keyF ep.1, ep.2)) := by
  intro l
  induction l with
  | nil => intro acc h; simp
  | cons e l ih =>
    intro acc h
    simp only [List.foldl_cons]
    by_cases hlen : e.2.length > 1
    · rw [if_pos hlen]
      have hfil : (e :: l).filter (fun e => e.2.length > 1) =
          e :: l.filter (fun e => e.2.length > 1) := by
        simp [List.filter_cons, hlen]
      rw [hfil] at h ⊢
      simp only [keysOf, List.map_cons] at h
      have hfresh : keyF e.1 ∉ keysOf acc := by
        intro hc
        exact (List.disjoint_of_nodup_append h) hc (List.mem_cons_self _ _)
      rw [dictSet_fresh acc _ _ hfresh]
      rw [ih (acc ++ [(keyF e.1, e.2)]) ?_]
      · simp
      · simp only [keysOf, List.map_append, List.map_cons, List.map_nil]
        rw [List.append_assoc]
        simpa using h
    · rw [if_neg hlen]
      have hfil : (e :: l).filter (fun e => e.2.length > 1) =
          l.filter (fun e => e.2.length > 1) := by
        simp [List.filter_cons, hlen]
      rw [hfil] at h ⊢
      exact ih acc h

theorem filter_map_snd (l : List (Str × List Str)) (g : Str → Str) :
    ((l.map (fun ep => (g ep.1, ep.2))).filter (fun ep => ep.2.length > 1)) =
      (l.filter (fun ep => ep.2.length > 1)).map (fun ep => (g ep.1, ep.2)) := by
  induction l with
  | nil => rfl
  | cons e l ih =>
    simp only [List.map_cons, List.filter_cons]
    by_cases hlen : e.2.length > 1
    · simp [hlen, ih]
    · simp [hlen, ih]

/-- C9: corrected. The two revisions are not the same function: labels
differ ("Type txt" versus "Type_txt", "No Extension" versus
"No_Extension"), and in non-recursive mode utils.py drops singleton
extension groups that main.py keeps. On one single .txt file with
recursive=False, main.py returns one "Type txt" group while utils.py
returns the empty mapping. -/
theorem C9_counterexample :
    sort_by_type [⟨strL "/r/a.txt", strL "a.txt", strL ".txt", []⟩] false none ≠
      utils_sort_by_type [⟨strL "/r/a.txt", strL "a.txt", strL ".txt", []⟩] false none := by
  decide

/-- C9 (amended): the two revisions compute the same grouping up to the
label renaming "Type " to "Type_" and "No Extension" to "No_Extension",
with one further divergence: whenever the code runs its non-recursive
branch (recursive false, or no/empty base path), utils.py keeps only
the groups of two or more files while main.py keeps every group.
Stated for descriptor lists whose extensions start with a dot, and for
base paths that are not themselves type labels in either naming. -/
theorem C9_sort_by_type_equiv (files : List FileD)
    (hdot : ∀ f ∈ files, f.ext.head? = some '.') :
    (∀ bp : Str, bp ≠ [] → bp ≠ NO_EXTENSION_FOLDER → bp.take 5 ≠ TYPE_PFX →
       bp ≠ strL "No_Extension" → bp.take 5 ≠ strL "Type_" →
       utils_sort_by_type files true (some bp) =
         (sort_by_type files true (some bp)).map (fun p => (renameKey p.1, p.2))) ∧
    (∀ (base_path : Option Str) (recursive : Bool),
       (recursive = false ∨ base_path = none ∨ base_path = some []) →
       utils_sort_by_type files recursive base_path =
         ((sort_by_type files recursive base_path).map
           (fun p => (renameKey p.1, p.2))).filter (fun p => p.2.length > 1)) := by
  have hkey_dot : ∀ k ∈ keysOf (byType files), k.head? = some '.' := by
    intro k hk
    obtain ⟨f, hf, rfl⟩ := List.mem_map.mp (byType_keys_sub files k hk)
    exact hdot f hf
  have hmapnd : ((keysOf (byType files)).map typeKey).Nodup := by
    refine (byType_keys_nodup files).map_on ?_
    intro a ha b hb hab
    exact typeKey_inj (hkey_dot a ha) (hkey_dot b hb) hab
  have hmapndU : ((keysOf (byType files)).map typeKeyU).Nodup := by
    refine (byType_keys_nodup files).map_on ?_
    intro a ha b hb hab
    exact typeKeyU_inj (hkey_dot a ha) (hkey_dot b hb) hab
  have hrhs : ((byType files).map (fun ep => (typeKey ep.1, ep.2))).map
      (fun p => (renameKey p.1, p.2)) =
      (byType files).map (fun ep => (typeKeyU ep.1, ep.2)) := by
    rw [List.map_map]
    apply List.map_congr_left
    intro p _
    simp [Function.comp, renameKey_typeKey]
  have hm : (byType files).foldl
      (fun sugg ep => dictSet sugg (typeKey ep.1) ep.2) [] =
      (byType files).map (fun ep => (typeKey ep.1, ep.2)) :=
    dictSet_fold_map typeKey (byType files) [] (by simpa [keysOf] using hmapnd)
  have hu : (byType files).foldl
      (fun sugg ep => if ep.2.length > 1 then dictSet sugg (typeKeyU ep.1) ep.2 else sugg)
      [] =
      ((byType files).filter (fun e => e.2.length > 1)).map
        (fun ep => (typeKeyU ep.1, ep.2)) := by
    apply dictSet_fold_map_filter typeKeyU (byType files) []
    have h1 : List.Sublist ((byType files).filter (fun e => e.2.length > 1))
        (byType files) := List.filter_sublist _
    have h2 := (h1.map Prod.fst).map typeKeyU
    simpa [keysOf] using hmapndU.sublist h2
  have hcore : (byType files).foldl
      (fun sugg ep => if ep.2.length > 1 then dictSet sugg (typeKeyU ep.1) ep.2 else sugg)
      [] =
      (((byType files).foldl (fun sugg ep => dictSet sugg (typeKey ep.1) ep.2) []).map
        (fun p => (renameKey p.1, p.2))).filter (fun p => p.2.length > 1) := by
    rw [hu, hm, hrhs, filter_map_snd]
  constructor
  · intro bp hne hb1 hb2 hb3 hb4
    have hef : bp.isEmpty = false := by
      cases bp with
      | nil => exact absurd rfl hne
      | cons c cs => rfl
    have hu2 : utils_sort_by_type files true (some bp) =
        (byType files).foldl (fun sugg ep =>
          if ep.2.length > 1 then dictSet sugg (typeKeyU ep.1) ep.2
          else dictAppend sugg bp (ep.2.headD [])) [] := by
      unfold utils_sort_by_type
      rw [if_pos (by simp [hef])]
      rfl
    have hm2 : sort_by_type files true (some bp) =
        (byType files).foldl (fun sugg ep =>
          if ep.2.length > 1 then dictSet sugg (typeKey ep.1) ep.2
          else dictAppend sugg bp (ep.2.headD [])) [] := by
      unfold sort_by_type
      rw [if_pos (by simp [hef])]
      rfl
    rw [hu2, hm2]
    have := rec_fold_rename bp hb1 hb2 hb3 hb4 (byType files) []
      (fun e he => hkey_dot e.1 (by simpa [keysOf] using List.mem_map_of_mem Prod.fst he))
      hmapnd
      (by intro e _ hc; simp [keysOf] at hc)
      (by intro k hk; simp [keysOf] at hk)
    simpa using this
  · intro bpO recursive hcase
    have hucond : (recursive && !(bpO.getD []).isEmpty) = false := by
      rcases hcase with h | h | h
      · rw [h]; rfl
      · rw [h]; simp
      · rw [h]; simp
    have hu2 : utils_sort_by_type files recursive bpO =
        (byType files).foldl (fun sugg ep =>
          if ep.2.length > 1 then dictSet sugg (typeKeyU ep.1) ep.2 else sugg) [] := by
      unfold utils_sort_by_type
      rw [if_neg (by simp [hucond])]
    have hm2 : sort_by_type files recursive bpO =
        (byType files).foldl (fun sugg ep => dictSet sugg (typeKey ep.1) ep.2) [] := by
      unfold sort_by_type
      rw [if_neg (by simp [hucond])]
    rw [hu2, hm2]
    exact hcore

theorem C9_sort_by_type_equiv_witness :
    utils_sort_by_type wfilesC3 true (some (strL "/base")) =
      (sort_by_type wfilesC3 true (some (strL "/base"))).map
        (fun p => (renameKey p.1, p.2)) :=
  (C9_sort_by_type_equiv wfilesC3 (by decide)).1 (strL "/base")
    (by decide) (by decide) (by decide) (by decide) (by decide)

theorem nameScore_eq_spec (s1 s2 : Str) : nameScore s1 s2 = nameScoreSpec s1 s2 := by
  have habs : |(s1.length : ℚ) - (s2.length : ℚ)| =
      ((((s1.length : Int) - (s2.length : Int)).natAbs : ℚ)) := by
    rw [Int.cast_natAbs]
    push_cast
    ring_nf
  have hcond : (((s1.length : Int) - (s2.length : Int)).natAbs >
        (max s1.length s2.length) / 2) ↔
      (|(s1.length : ℚ) - (s2.length : ℚ)| > (max s1.length s2.length : ℚ) / 2) := by
    rw [habs]
    rw [gt_iff_lt, gt_iff_lt, Nat.div_lt_iff_lt_mul (by norm_num : 0 < 2),
      div_lt_iff (by norm_num : (0 : ℚ) < 2)]
    constructor
    · intro h
      exact_mod_cast h
    · intro h
      exact_mod_cast h
  unfold nameScore nameScoreSpec
  by_cases hrej : ((s1.length : Int) - (s2.length : Int)).natAbs >
      (max s1.length s2.length) / 2
  · rw [if_pos hrej, if_pos (hcond.mp hrej)]
  · rw [if_neg hrej, if_neg (fun hc => hrej (hcond.mpr hc))]
    simp only [Nat.cast_max]
    by_cases htot : max s1.length s2.length > 0
    · rw [if_pos htot]
      by_cases hpfx : commonPfxLen s1 s2 ≥ 3
      · rw [if_pos hpfx, if_pos hpfx]
        congr 1
        ring
      · rw [if_neg hpfx, if_neg hpfx]
        ring
    · rw [if_neg htot]
      have hs1 : s1 = [] := by
        have := List.eq_nil_of_length_eq_zero (l := s1) (by omega)
        exact this
      have hs2 : s2 = [] := by
        have := List.eq_nil_of_length_eq_zero (l := s2) (by omega)
        exact this
      subst hs1
      subst hs2
      norm_num [commonPfxLen, commonDistinct]

theorem nameScore_doc : nameScore (strL "doc1") (strL "doc2") = 90 := by
  unfold nameScore
  rw [if_neg (by decide)]
  have hc : commonDistinct (strL "doc1") (strL "doc2") = 3 := by decide
  have hp : commonPfxLen (strL "doc1") (strL "doc2") = 3 := by decide
  have h1 : (strL "doc1").length = 4 := by decide
  have h2 : (strL "doc2").length = 4 := by decide
  simp only [hc, hp, h1, h2]
  norm_num

theorem simscore_doc : similarity_score false (strL "doc1") (strL "doc2") = 90 := by
  unfold similarity_score
  rw [if_neg (by decide)]
  have e1 : lowerStr (stemOf (strL "doc1")) = strL "doc1" := by decide
  have e2 : lowerStr (stemOf (strL "doc2")) = strL "doc2" := by decide
  rw [e1, e2, nameScore_doc]

theorem simscore_docnames :
    similarity_score false (strL "doc1.txt") (strL "doc2.txt") = 90 := by
  unfold similarity_score
  rw [if_neg (by decide)]
  have e1 : lowerStr (stemOf (strL "doc1.txt")) = strL "doc1" := by decide
  have e2 : lowerStr (stemOf (strL "doc2.txt")) = strL "doc2" := by decide
  rw [e1, e2, nameScore_doc]

theorem simscore_az : similarity_score false (strL "a") (strL "zzzzzzzzzz") = 0 := by
  unfold similarity_score
  rw [if_neg (by decide)]
  have e1 : lowerStr (stemOf (strL "a")) = strL "a" := by decide
  have e2 : lowerStr (stemOf (strL "zzzzzzzzzz")) = strL "zzzzzzzzzz" := by decide
  rw [e1, e2]
  unfold nameScore
  rw [if_pos (by decide)]

theorem simgroup_doc :
    sort_by_similarity
      [⟨strL "/r/doc1.txt", strL "doc1.txt", strL ".txt", []⟩,
       ⟨strL "/r/doc2.txt", strL "doc2.txt", strL ".txt", []⟩] false (fun _ => []) =
      [(strL "Similar1", [strL "/r/doc1.txt", strL "/r/doc2.txt"])] := by
  unfold sort_by_similarity
  simp only [simLoop, simCollect, simKey]
  rw [if_neg (by decide)]
  simp only [if_neg (by decide : ¬ (false = true))]
  rw [simscore_docnames]
  norm_num
  decide

/-- C6: the name-mode similarity score equals the claim's formula on
every pair of stems (zero on the length rejection, which over the
integers coincides with exceeding half the longer length; otherwise 100
times the distinct-character containment ratio, boosted by five per
common-prefix character once the prefix reaches three, capped at 100);
consequently stems "doc1"/"doc2" score 90 >= 60 and the two files are
grouped into "Similar1" by sort_by_similarity, while "a" and
"zzzzzzzzzz" score 0. -/
theorem C6_similarity_name_mode :
    (∀ s1 s2 : Str, nameScore s1 s2 = nameScoreSpec s1 s2) ∧
    similarity_score false (strL "doc1") (strL "doc2") ≥ 60 ∧
    sort_by_similarity
      [⟨strL "/r/doc1.txt", strL "doc1.txt", strL ".txt", []⟩,
       ⟨strL "/r/doc2.txt", strL "doc2.txt", strL ".txt", []⟩] false (fun _ => []) =
      [(strL "Similar1", [strL "/r/doc1.txt", strL "/r/doc2.txt"])] ∧
    similarity_score false (strL "a") (strL "zzzzzzzzzz") = 0 :=
  ⟨nameScore_eq_spec, by rw [simscore_doc]; norm_num, simgroup_doc, simscore_az⟩

/-- C4: code bug. On a single duplicate '/source/file.txt' with an
empty destination folder, the code moves it to
'Duplicates/Dupe_file.txt': the ordinal-indexed name
'Dupe0_file.txt' is computed by the loop (dest_path, counter) but never
used, because the move is performed by
safe_move_file(path, dup_folder, prefix="Dupe_"). The claim (and the
unit test test_move_duplicates_names, which expects a 'Dupe0_'-style
destination and fails against this code) describes the dead
computation, not the performed move. -/
theorem C4_ordinal_name_unused :
    move_duplicates [⟨strL "/source/file.txt", 1, 0⟩] (strL "/test") false [] =
      some ([(strL "/source/file.txt", strL "/test/Duplicates/Dupe_file.txt")],
        [strL "/test/Duplicates/Dupe_file.txt"]) ∧
    strL "/test/Duplicates/Dupe_file.txt" ≠
      dupeOrdinalName (joinP (strL "/test") DUPLICATES_FOLDER) 0
        (strL "/source/file.txt") := by
  constructor
  · decide
  · decide

theorem lookupD_cons {α β : Type} [DecidableEq α] (e : α × List β) (d : List (α × List β))
    (k : α) :
    lookupD (e :: d) k = (if e.1 = k then e.2 else []) ++ lookupD d k := by
  by_cases h : e.1 = k
  · simp [lookupD, List.filter_cons, h]
  · simp [lookupD, List.filter_cons, h]

theorem lookupD_nil {α β : Type} [DecidableEq α] (k : α) :
    lookupD ([] : List (α × List β)) k = [] := rfl

theorem lookupD_of_not_mem {α β : Type} [DecidableEq α] (d : List (α × List β)) (k : α)
    (h : k ∉ keysOf d) : lookupD d k = [] := by
  induction d with
  | nil => rfl
  | cons e d ih =>
    simp only [keysOf, List.map_cons, List.mem_cons] at h
    push_neg at h
    rw [lookupD_cons, if_neg (Ne.symm h.1), ih h.2]
    rfl

theorem lookupD_dictAppend {α β : Type} [DecidableEq α] (d : List (α × List β))
    (k : α) (v : β) (hnd : (keysOf d).Nodup) (k' : α) :
    lookupD (dictAppend d k v) k' =
      if k' = k then lookupD d k' ++ [v] else lookupD d k' := by
  induction d with
  | nil =>
    by_cases h : k' = k
    · subst h
      simp [dictAppend, keysOf, lookupD]
    · simp [dictAppend, keysOf, lookupD, List.filter_cons, h, Ne.symm h]
  | cons e d ih =>
    simp only [keysOf, List.map_cons, List.nodup_cons] at hnd
    unfold dictAppend
    by_cases hm : k ∈ keysOf (e :: d)
    · rw [if_pos hm]
      by_cases he : e.1 = k
      · have hkd : k ∉ keysOf d := he ▸ hnd.1
        simp only [List.map_cons, if_pos he]
        rw [map_update_of_not_mem d k _ hkd]
        rw [lookupD_cons, lookupD_cons]
        by_cases h' : k' = k
        · subst h'
          rw [lookupD_of_not_mem d k' hkd]
          simp [he]
        · have he' : ¬ (e.1 = k') := fun hc => h' ((hc.symm.trans he).symm ▸ rfl)
          simp [he', h']
      · have hkd : k ∈ keysOf d := by
          simp only [keysOf, List.map_cons, List.mem_cons] at hm
          rcases hm with h1 | h2
          · exact absurd h1.symm he
          · exact h2
        simp only [List.map_cons, if_neg he]
        have hd' : d.map (fun p => if p.1 = k then (p.1, p.2 ++ [v]) else p) =
            dictAppend d k v := by
          unfold dictAppend
          rw [if_pos hkd]
        rw [hd', lookupD_cons, lookupD_cons, ih hnd.2]
        by_cases h' : k' = k
        · subst h'
          simp [he]
        · simp [h']
    · rw [if_neg hm]
      have hkd : k ∉ keysOf d := by
        intro hc
        apply hm
        simp only [keysOf, List.map_cons, List.mem_cons]
        right
        simpa [keysOf] using hc
      have hke : ¬ (e.1 = k) := by
        intro hc
        exact hm (by simp [keysOf, hc])
      have hd' : d ++ [(k, [v])] = dictAppend d k v := by
        unfold dictAppend
        rw [if_neg hkd]
      rw [List.cons_append, lookupD_cons, hd', lookupD_cons, ih hnd.2]
      by_cases h' : k' = k
      · subst h'
        simp [hke]
      · simp [h']

theorem mem_keysOf_dictAppend {α β : Type} [DecidableEq α] (d : List (α × List β))
    (k : α) (v : β) : k ∈ keysOf (dictAppend d k v) := by
  rw [keysOf_dictAppend]
  by_cases h : k ∈ keysOf d
  · rwa [if_pos h]
  · rw [if_neg h]
    simp

theorem mem_keysOf_dictAppend_of_mem {α β : Type} [DecidableEq α]
    (d : List (α × List β)) (k k' : α) (v : β) (h : k' ∈ keysOf d) :
    k' ∈ keysOf (dictAppend d k v) := by
  rw [keysOf_dictAppend]
  by_cases hm : k ∈ keysOf d
  · rwa [if_pos hm]
  · rw [if_neg hm]
    exact List.mem_append.mpr (Or.inl h)

theorem byHash_eq_filter : ∀ (l : List DupFile) (d : List (Nat × List Str)),
    l.foldl (fun d f => if f.size > 0 then dictAppend d f.digest f.path else d) d =
      (l.filter (fun f => f.size > 0)).foldl
        (fun d f => dictAppend d f.digest f.path) d := by
  intro l
  induction l with
  | nil => intro d; simp
  | cons f l ih =>
    intro d
    simp only [List.foldl_cons, List.filter_cons]
    by_cases h : f.size > 0
    · simp only [h, decide_eq_true_eq, if_pos, List.foldl_cons]
      exact ih (dictAppend d f.digest f.path)
    · rw [if_neg h]
      simp only [h]
      rw [if_neg (by simpa using h)]
      exact ih d

theorem hashFold_char : ∀ (l : List DupFile) (d : List (Nat × List Str)),
    (keysOf d).Nodup →
    (keysOf (l.foldl (fun d f => dictAppend d f.digest f.path) d)).Nodup ∧
    (∀ k gs, (k, gs) ∈ l.foldl (fun d f => dictAppend d f.digest f.path) d →
      gs = lookupD d k ++ (l.filter (fun f => f.digest = k)).map DupFile.path) ∧
    (∀ k, k ∈ keysOf d → k ∈ keysOf (l.foldl (fun d f => dictAppend d f.digest f.path) d)) ∧
    (∀ f ∈ l, f.digest ∈ keysOf (l.foldl (fun d f => dictAppend d f.digest f.path) d)) := by
  intro l
  induction l with
  | nil =>
    intro d hnd
    refine ⟨hnd, ?_, fun k hk => hk, by simp⟩
    intro k gs hmem
    simp only [List.foldl_nil] at hmem
    have := hnd
    -- entry lookup: with Nodup keys, the entry's group is the lookup
    clear this
    induction d with
    | nil => simp at hmem
    | cons e d ih2 =>
      simp only [keysOf, List.map_cons, List.nodup_cons] at hnd
      rcases List.mem_cons.mp hmem with h1 | h2
      · have hk : e.1 = k := by rw [← h1]
        have hgs : e.2 = gs := by rw [← h1]
        rw [lookupD_cons, if_pos hk, ← hk, lookupD_of_not_mem d e.1 hnd.1]
        simp [hgs]
      · rw [lookupD_cons]
        have hne : ¬ (e.1 = k) := by
          intro hc
          apply hnd.1
          rw [hc]
          have : k ∈ keysOf d := by
            simpa [keysOf] using List.mem_map_of_mem Prod.fst h2
          simpa [keysOf] using this
        rw [if_neg hne]
        simp only [List.nil_append, List.filter_nil, List.map_nil, List.append_nil]
        have := ih2 hnd.2 h2
        simpa using this
  | cons f l ih =>
    intro d hnd
    simp only [List.foldl_cons]
    have hnd' : (keysOf (dictAppend d f.digest f.path)).Nodup :=
      keysOf_dictAppend_nodup d _ _ hnd
    obtain ⟨g1, g2, g3, g4⟩ := ih (dictAppend d f.digest f.path) hnd'
    refine ⟨g1, ?_, ?_, ?_⟩
    · intro k gs hmem
      have := g2 k gs hmem
      rw [lookupD_dictAppend d f.digest f.path hnd k] at this
      rw [this]
      by_cases hk : f.digest = k
      · rw [if_pos hk.symm]
        have hfil : (f :: l).filter (fun f => decide (f.digest = k)) =
            f :: l.filter (fun f => decide (f.digest = k)) := by
          simp [List.filter_cons, hk]
        rw [hfil]
        simp [List.append_assoc]
      · rw [if_neg (fun hc : k = f.digest => hk hc.symm)]
        have hfil : (f :: l).filter (fun f => decide (f.digest = k)) =
            l.filter (fun f => decide (f.digest = k)) := by
          simp [List.filter_cons, hk]
        rw [hfil]
    · intro k hk
      exact g3 k (mem_keysOf_dictAppend_of_mem d _ k _ hk)
    · intro f' hf'
      rcases List.mem_cons.mp hf' with h1 | h2
      · subst h1
        exact g3 f'.digest (mem_keysOf_dictAppend d _ _)
      · exact g4 f' h2

theorem exists_other_of_one_lt {α : Type} (l : List α) (hnd : l.Nodup) (f : α)
    (hf : f ∈ l) (hlen : 1 < l.length) : ∃ g ∈ l, g ≠ f := by
  cases l with
  | nil => simp at hf
  | cons a t =>
    cases t with
    | nil => simp at hlen
    | cons b t2 =>
      by_cases hfa : f = a
      · refine ⟨b, by simp, ?_⟩
        intro hc
        subst hfa
        rw [hc] at hnd
        simp at hnd
      · exact ⟨a, by simp, fun hc => hfa hc.symm⟩

theorem one_lt_length_of_two_mem {α : Type} (l : List α) (a b : α) (ha : a ∈ l)
    (hb : b ∈ l) (hab : a ≠ b) : 1 < l.length := by
  cases l with
  | nil => simp at ha
  | cons x t =>
    cases t with
    | nil =>
      simp only [List.mem_singleton] at ha hb
      exact absurd (ha.trans hb.symm) hab
    | cons y t2 => simp

theorem refine_mem (dups : List DupFile) (hnd : (dups.map DupFile.path).Nodup) (p : Str) :
    p ∈ refineDups true dups ↔
      ∃ f ∈ dups, f.path = p ∧ 0 < f.size ∧
        ∃ g ∈ dups, g.path ≠ f.path ∧ 0 < g.size ∧ g.digest = f.digest := by
  have hdnd : dups.Nodup := List.Nodup.of_map _ hnd
  have hinj := List.inj_on_of_nodup_map hnd
  have hFnd : (dups.filter (fun f => f.size > 0)).Nodup :=
    hdnd.sublist (List.filter_sublist _)
  obtain ⟨bnd, bchar, bmono, bkeys⟩ := hashFold_char (dups.filter (fun f => f.size > 0)) []
    (by simp [keysOf])
  have hstep : refineDups true dups =
      valsJoin ((((dups.filter (fun f => f.size > 0)).foldl
        (fun d f => dictAppend d f.digest f.path) [])).filter
          (fun pr => pr.2.length > 1)) := by
    unfold refineDups byHash
    rw [if_pos rfl, byHash_eq_filter dups []]
  rw [hstep]
  constructor
  · intro hp
    simp only [valsJoin, List.mem_flatten, List.mem_map, List.mem_filter] at hp
    obtain ⟨gs, ⟨e, ⟨heB, hegt⟩, hsnd⟩, hpgs⟩ := hp
    subst hsnd
    have hchar := bchar e.1 e.2 (by simpa using heB)
    have hL : e.2 = ((dups.filter (fun f => f.size > 0)).filter
        (fun f => f.digest = e.1)).map DupFile.path := by
      simpa [lookupD_nil] using hchar
    rw [hL] at hpgs hegt
    obtain ⟨f, hfL, hfp⟩ := List.mem_map.mp hpgs
    have hfF := List.mem_filter.mp hfL
    have hfD := List.mem_filter.mp hfF.1
    have hLnd : ((dups.filter (fun f => f.size > 0)).filter
        (fun f => f.digest = e.1)).Nodup := hFnd.sublist (List.filter_sublist _)
    have hLlen : 1 < ((dups.filter (fun f => f.size > 0)).filter
        (fun f => f.digest = e.1)).length := by simpa using hegt
    obtain ⟨g, hgL, hgne⟩ := exists_other_of_one_lt _ hLnd f hfL hLlen
    have hgF := List.mem_filter.mp hgL
    have hgD := List.mem_filter.mp hgF.1
    refine ⟨f, hfD.1, hfp, by simpa using hfD.2, g, hgD.1, ?_, by simpa using hgD.2, ?_⟩
    · intro hc
      exact hgne (hinj hgD.1 hfD.1 hc)
    · have h1 : g.digest = e.1 := by simpa using hgF.2
      have h2 : f.digest = e.1 := by simpa using hfF.2
      rw [h1, h2]
  · rintro ⟨f, hfD, hfp, hfs, g, hgD, hgp, hgs, hgd⟩
    have hfF : f ∈ dups.filter (fun f => f.size > 0) :=
      List.mem_filter.mpr ⟨hfD, by simpa using hfs⟩
    have hgF : g ∈ dups.filter (fun f => f.size > 0) :=
      List.mem_filter.mpr ⟨hgD, by simpa using hgs⟩
    have hkey := bkeys f hfF
    have hkey2 : ∃ e ∈ (dups.filter (fun f => f.size > 0)).foldl
        (fun d f => dictAppend d f.digest f.path) [], e.1 = f.digest := by
      simpa [keysOf] using hkey
    obtain ⟨e, heB, hek⟩ := hkey2
    have hchar := bchar e.1 e.2 (by simpa using heB)
    have hL : e.2 = ((dups.filter (fun f => f.size > 0)).filter
        (fun f => f.digest = e.1)).map DupFile.path := by
      simpa [lookupD_nil] using hchar
    have hfL : f ∈ (dups.filter (fun f => f.size > 0)).filter
        (fun f => f.digest = e.1) := List.mem_filter.mpr ⟨hfF, by simp [hek]⟩
    have hgL : g ∈ (dups.filter (fun f => f.size > 0)).filter
        (fun f => f.digest = e.1) := List.mem_filter.mpr ⟨hgF, by simp [hek, hgd]⟩
    have hfg : f ≠ g := by
      intro hc
      exact hgp (by rw [hc])
    have hlen := one_lt_length_of_two_mem _ f g hfL hgL hfg
    simp only [valsJoin, List.mem_flatten, List.mem_map, List.mem_filter]
    refine ⟨e.2, ⟨e, ⟨heB, ?_⟩, rfl⟩, ?_⟩
    · rw [hL]
      simpa using hlen
    · rw [hL, ← hfp]
      exact List.mem_map_of_mem _ hfL

theorem moveDupsLoop_fst (folder : Str) :
    ∀ (l fs : List Str), (moveDupsLoop folder l fs).1.map Prod.fst = l := by
  intro l
  induction l with
  | nil => intro fs; rfl
  | cons p rest ih =>
    intro fs
    simp only [moveDupsLoop, List.map_cons]
    rw [ih]

/-- C7: with check_contents, move_duplicates (for a non-empty,
duplicate-free-by-path candidate list) creates the Duplicates folder and
relocates exactly the positive-size candidates whose digest is shared
with another positive-size candidate: a source is moved iff such a
digest partner exists; when all digests are pairwise distinct nothing is
moved though the folder is still created (the returned move list is
empty); and a zero-byte candidate is never moved (it is never hashed or
grouped, by definition of the refinement). -/
theorem C7_content_mode (dups : List DupFile) (base : Str) (fs : List Str)
    (hne : dups ≠ []) (hnd : (dups.map DupFile.path).Nodup) :
    ∃ ms fs2, move_duplicates dups base true fs = some (ms, fs2) ∧
      (∀ p, (∃ m ∈ ms, m.1 = p) ↔
        (∃ f ∈ dups, f.path = p ∧ 0 < f.size ∧
          ∃ g ∈ dups, g.path ≠ f.path ∧ 0 < g.size ∧ g.digest = f.digest)) ∧
      ((∀ f ∈ dups, ∀ g ∈ dups, f.digest = g.digest → f = g) → ms = []) ∧
      (∀ f ∈ dups, f.size = 0 → ∀ m ∈ ms, m.1 ≠ f.path) := by
  have hinj := List.inj_on_of_nodup_map hnd
  have hnotempty : ¬ dups.isEmpty := by
    cases dups with
    | nil => exact absurd rfl hne
    | cons a t => simp
  refine ⟨(moveDupsLoop (joinP base DUPLICATES_FOLDER) (refineDups true dups) fs).1,
    (moveDupsLoop (joinP base DUPLICATES_FOLDER) (refineDups true dups) fs).2,
    ?_, ?_, ?_, ?_⟩
  · unfold move_duplicates
    rw [if_neg hnotempty]
  · intro p
    have hsrc : ((moveDupsLoop (joinP base DUPLICATES_FOLDER) (refineDups true dups)
        fs).1.map Prod.fst) = refineDups true dups := moveDupsLoop_fst _ _ _
    have hmem : (∃ m ∈ (moveDupsLoop (joinP base DUPLICATES_FOLDER)
        (refineDups true dups) fs).1, m.1 = p) ↔ p ∈ refineDups true dups := by
      constructor
      · rintro ⟨m, hm, rfl⟩
        rw [← hsrc]
        exact List.mem_map_of_mem _ hm
      · intro hp
        rw [← hsrc] at hp
        obtain ⟨m, hm, hmp⟩ := List.mem_map.mp hp
        exact ⟨m, hm, hmp⟩
    rw [hmem]
    exact refine_mem dups hnd p
  · intro hdig
    have hempty : refineDups true dups = [] := by
      by_contra hc
      obtain ⟨p, hp⟩ := List.exists_mem_of_ne_nil _ hc
      obtain ⟨f, hfD, _, _, g, hgD, hgp, _, hgd⟩ := (refine_mem dups hnd p).mp hp
      exact hgp (congrArg DupFile.path (hdig g hgD f hfD hgd))
    show (moveDupsLoop (joinP base DUPLICATES_FOLDER) (refineDups true dups) fs).1 = []
    rw [hempty]
    rfl
  · intro f hf hsz m hm hc
    have hmem : (∃ m ∈ (moveDupsLoop (joinP base DUPLICATES_FOLDER)
        (refineDups true dups) fs).1, m.1 = f.path) := ⟨m, hm, hc⟩
    have hsrc := moveDupsLoop_fst (joinP base DUPLICATES_FOLDER) (refineDups true dups) fs
    have hpmem : f.path ∈ refineDups true dups := by
      rw [← hsrc]
      obtain ⟨m2, hm2, hm2p⟩ := hmem
      rw [← hm2p]
      exact List.mem_map_of_mem _ hm2
    obtain ⟨f2, hf2D, hf2p, hf2s, _⟩ := (refine_mem dups hnd f.path).mp hpmem
    have : f2 = f := hinj hf2D hf hf2p
    rw [this] at hf2s
    omega

theorem C7_content_mode_witness :
    ([⟨strL "/a/x.txt", 5, 7⟩, ⟨strL "/b/x.txt", 5, 7⟩] : List DupFile) ≠ [] ∧
    (([⟨strL "/a/x.txt", 5, 7⟩, ⟨strL "/b/x.txt", 5, 7⟩] : List DupFile).map
      DupFile.path).Nodup ∧
    ∃ ms fs2, move_duplicates [⟨strL "/a/x.txt", 5, 7⟩, ⟨strL "/b/x.txt", 5, 7⟩]
      (strL "/t") true [] = some (ms, fs2) := by
  refine ⟨by decide, by decide, ?_⟩
  obtain ⟨ms, fs2, h1, _⟩ := C7_content_mode
    [⟨strL "/a/x.txt", 5, 7⟩, ⟨strL "/b/x.txt", 5, 7⟩] (strL "/t") []
    (by decide) (by decide)
  exact ⟨ms, fs2, h1⟩

/-- C10: on the empty suggestion mapping, the move pass of
organize_files with a supplied non-empty base path touches nothing —
no folder is created, no file is moved, the filesystem is returned
unchanged — while with base_path None (or the falsy empty string) the
effective-root fallback evaluates next(iter({})) before any guard and
raises. -/
theorem C10_empty_suggestions (bp : Str) (fs : List Str) (hbp : bp ≠ []) :
    organize_move_pass [] (some bp) fs =
      .ok { fs := fs, made := [], moves := [] } ∧
    organize_move_pass [] none fs = .error () := by
  constructor
  · have hef : bp.isEmpty = false := by
      cases bp with
      | nil => exact absurd rfl hbp
      | cons c cs => rfl
    unfold organize_move_pass effective_root
    simp [hef]
  · rfl

theorem C10_empty_suggestions_witness :
    strL "/r" ≠ [] ∧
    organize_move_pass [] (some (strL "/r")) [strL "/r/x.txt"] =
      .ok { fs := [strL "/r/x.txt"], made := [], moves := [] } :=
  ⟨by decide, (C10_empty_suggestions (strL "/r") [strL "/r/x.txt"] (by decide)).1⟩

theorem pruneFree_isEmpty : ∀ es : List FSEntry, (pruneFree es).isEmpty = fileFree es := by
  intro es
  induction es using pruneFree.induct with
  | case1 => simp [pruneFree, fileFree]
  | case2 n es ih => simp [pruneFree, fileFree]
  | case3 n cs es hff ih => simp [pruneFree, fileFree, hff, ih]
  | case4 n cs es hff ih1 ih2 => simp [pruneFree, fileFree, hff]

theorem emptyDirNames_subset_relocatable :
    ∀ es : List FSEntry, ∀ n ∈ emptyDirNames es, n ∈ relocatable es := by
  intro es
  induction es using emptyDirNames.induct with
  | case1 => simp [emptyDirNames]
  | case2 x es ih => simpa [emptyDirNames, relocatable] using ih
  | case3 n cs es ih1 ih2 =>
    intro m hm
    simp only [emptyDirNames, List.mem_append] at hm
    simp only [relocatable]
    rcases hm with (h1 | h2) | h3
    · by_cases hcs : cs.isEmpty = true
      · rw [if_pos hcs] at h1
        have hff : fileFree cs = true := by
          cases cs with
          | nil => simp [fileFree]
          | cons a t => simp at hcs
        rw [if_pos hff]
        exact List.mem_append_left _ (List.mem_append_right _ h1)
      · rw [if_neg hcs] at h1
        simp at h1
    · exact List.mem_append_left _ (List.mem_append_left _ (ih1 m h2))
    · exact List.mem_append_right _ (ih2 m h3)

theorem nodup_prefix_sub {α : Type} (acc A B C : List α)
    (h : (acc ++ ((A ++ B) ++ C)).Nodup) : (acc ++ A).Nodup := by
  have hsub : List.Sublist (acc ++ A) (acc ++ ((A ++ B) ++ C)) := by
    apply List.Sublist.append_left
    exact ((List.sublist_append_left A B).trans (List.sublist_append_left _ C))
  exact h.sublist hsub

theorem cleanupMove_spec : ∀ (es : List FSEntry) (acc : List Str),
    (acc ++ relocatable es).Nodup →
    cleanupMove es acc = (pruneFree es, acc ++ relocatable es) := by
  intro es acc
  induction es, acc using cleanupMove.induct with
  | case1 acc =>
    intro h
    simp [cleanupMove, relocatable, pruneFree]
  | case2 n es acc ih =>
    intro h
    have hh : (acc ++ relocatable es).Nodup := by
      simpa [relocatable] using h
    simp only [cleanupMove]
    rw [ih hh]
    simp [relocatable, pruneFree]
  | case3 n cs es acc rc hemp hmem ih ihes =>
    intro h
    exfalso
    have hcs : (acc ++ relocatable cs).Nodup := by
      refine nodup_prefix_sub acc (relocatable cs)
        (if fileFree cs = true then [n] else []) (relocatable es) ?_
      simpa only [relocatable] using h
    have hrc : rc = (pruneFree cs, acc ++ relocatable cs) := ih hcs
    rw [hrc] at hemp hmem
    dsimp only at hemp hmem
    have hff : fileFree cs = true := by
      rw [← pruneFree_isEmpty]
      exact hemp
    have hre : (acc ++ ((relocatable cs ++ [n]) ++ relocatable es)).Nodup := by
      have h2 := h
      simp only [relocatable, if_pos hff] at h2
      exact h2
    have hre2 : (((acc ++ relocatable cs) ++ [n]) ++ relocatable es).Nodup := by
      simpa [List.append_assoc] using hre
    have hre3 := (List.nodup_append.mp hre2).1
    have hdisj := (List.nodup_append.mp hre3).2.2
    exact hdisj hmem (List.mem_singleton.mpr rfl)
  | case4 n cs es acc rc hemp hmem ih ihes =>
    intro h
    have hcs : (acc ++ relocatable cs).Nodup := by
      refine nodup_prefix_sub acc (relocatable cs)
        (if fileFree cs = true then [n] else []) (relocatable es) ?_
      simpa only [relocatable] using h
    have ihc : cleanupMove cs acc = (pruneFree cs, acc ++ relocatable cs) := ih hcs
    have hrc : rc = (pruneFree cs, acc ++ relocatable cs) := ihc
    rw [hrc] at hemp hmem ihes
    dsimp only at hemp hmem ihes
    have hff : fileFree cs = true := by
      rw [← pruneFree_isEmpty]
      exact hemp
    have hgoalR : relocatable (.dir n cs :: es) =
        (relocatable cs ++ [n]) ++ relocatable es := by
      simp [relocatable, if_pos hff]
    have hgoalP : pruneFree (.dir n cs :: es) = pruneFree es := by
      simp [pruneFree, if_pos hff]
    have hnd2 : (((acc ++ relocatable cs) ++ [n]) ++ relocatable es).Nodup := by
      have h2 := h
      rw [hgoalR] at h2
      simpa [List.append_assoc] using h2
    have hres := ihes (by simpa [List.append_assoc] using hnd2)
    simp only [cleanupMove]
    rw [ihc]
    dsimp only
    rw [if_pos hemp, if_neg hmem]
    rw [hres]
    rw [hgoalP, hgoalR]
    simp [List.append_assoc]
  | case5 n cs es acc rc hemp ih ihes =>
    intro h
    have hcs : (acc ++ relocatable cs).Nodup := by
      refine nodup_prefix_sub acc (relocatable cs)
        (if fileFree cs = true then [n] else []) (relocatable es) ?_
      simpa only [relocatable] using h
    have ihc : cleanupMove cs acc = (pruneFree cs, acc ++ relocatable cs) := ih hcs
    have hrc : rc = (pruneFree cs, acc ++ relocatable cs) := ihc
    rw [hrc] at hemp ihes
    dsimp only at hemp ihes
    have hff : fileFree cs = false := by
      rw [← pruneFree_isEmpty]
      simpa using hemp
    have hgoalR : relocatable (.dir n cs :: es) =
        relocatable cs ++ relocatable es := by
      simp [relocatable, hff]
    have hgoalP : pruneFree (.dir n cs :: es) =
        .dir n (pruneFree cs) :: pruneFree es := by
      simp [pruneFree, hff]
    have hnd2 : ((acc ++ relocatable cs) ++ relocatable es).Nodup := by
      have h2 := h
      rw [hgoalR] at h2
      simpa [List.append_assoc] using h2
    have hres := ihes (by simpa [List.append_assoc] using hnd2)
    simp only [cleanupMove]
    rw [ihc]
    dsimp only
    rw [if_neg hemp]
    rw [hres]
    rw [hgoalP, hgoalR]
    simp [List.append_assoc]

/-- C5: with recursive=True, cleanup=True, delete_empty=False, when the
post-move tree has no empty directory the phase is skipped (tree
unchanged, no Empty Folders directory created); when it has one and the
relocatable directory names are pairwise distinct, every file-free
strict subdirectory — in particular every empty one — is relocated (by
base name) under a single new Empty Folders directory and none is
deleted, the surviving tree being the input with file-free
subdirectories pruned. -/
theorem C5_empty_folder_relocation (es : List FSEntry)
    (hnd : (relocatable es).Nodup) :
    (anyEmptyDir es = false → cleanup_phase true true false es = es) ∧
    (anyEmptyDir es = true →
      cleanup_phase true true false es =
        pruneFree es ++
          [.dir EMPTY_FOLDERS_FOLDER ((relocatable es).map (fun n => .dir n []))]) ∧
    (∀ n ∈ emptyDirNames es, n ∈ relocatable es) := by
  refine ⟨?_, ?_, emptyDirNames_subset_relocatable es⟩
  · intro hno
    simp [cleanup_phase, hno]
  · intro hyes
    have h := cleanupMove_spec es [] (by simpa using hnd)
    simp [cleanup_phase, hyes, h]

theorem C5_empty_folder_relocation_witness :
    anyEmptyDir [FSEntry.dir (strL "a") [], FSEntry.file (strL "f.txt")] = true ∧
    cleanup_phase true true false
        [FSEntry.dir (strL "a") [], FSEntry.file (strL "f.txt")] =
      pruneFree [FSEntry.dir (strL "a") [], FSEntry.file (strL "f.txt")] ++
        [.dir EMPTY_FOLDERS_FOLDER
          ((relocatable [FSEntry.dir (strL "a") [], FSEntry.file (strL "f.txt")]).map
            (fun n => .dir n []))] :=
  ⟨by simp [anyEmptyDir],
   (C5_empty_folder_relocation _ (by simp [relocatable, fileFree])).2.1
     (by simp [anyEmptyDir])⟩

/-- C5 counterexample: two empty directories that share a base name.
a/x is relocated first; b/x then collides at the destination, the move
fails and b/x stays in place, so b survives non-empty and the output
still contains an empty directory outside Empty Folders — the claim's
"every directory that is empty after the move pass is relocated" fails. -/
theorem C5_counterexample :
    cleanup_phase true true false
        [FSEntry.dir (strL "a") [FSEntry.dir (strL "x") []],
         FSEntry.dir (strL "b") [FSEntry.dir (strL "x") []]] =
      [FSEntry.dir (strL "b") [FSEntry.dir (strL "x") []],
       FSEntry.dir EMPTY_FOLDERS_FOLDER
         [FSEntry.dir (strL "x") [], FSEntry.dir (strL "a") []]] ∧
    anyEmptyDir [FSEntry.dir (strL "b") [FSEntry.dir (strL "x") []]] = true := by
  constructor
  · simp [cleanup_phase, anyEmptyDir, cleanupMove, strL, EMPTY_FOLDERS_FOLDER]
  · simp [anyEmptyDir]

end DirO
